import Mathlib

/-!
# Verification of the KE-LLM triple-evaluation engine

A shallow embedding of the evaluation core of `evaluate.py` (triple
normalization, difflib-based entity similarity, entity deduplication,
greedy gold/predicted matching with per-type statistics, and corpus
aggregation), together with theorems settling the specification claims.

Python strings are modelled as lists of characters (`PyStr`); Python
floats produced by the metric formulas are modelled as rationals.
-/

namespace KELLM

/-- A Python string, modelled as its list of characters. -/
abbrev PyStr := List Char

/-- The whitespace class used by the normalizer's regular expressions
(`\s`) and by `str.strip()`: the ASCII whitespace characters. -/
def isPySpace (c : Char) : Bool :=
  c == ' ' || c == '\t' || c == '\n' || c == '\r' || c == '\x0b' || c == '\x0c'

/-- The six bracket characters removed by `re.sub(r'[\(\)\[\]\{\}]', '', ...)`
in `normalize_triplet` (evaluate.py line 16). -/
def isBracketChar (c : Char) : Bool :=
  c == '(' || c == ')' || c == '[' || c == ']' || c == '{' || c == '}'

/-- Step 1 of `normalize_triplet`: delete every bracket character
(`re.sub(r'[\(\)\[\]\{\}]', '', s)`). -/
def removeBrackets (l : PyStr) : PyStr :=
  l.filter (fun c => !(isBracketChar c))

/-- Does the string begin with optional whitespace followed by a comma?
This is the condition for `\s*,\s*` to match starting at the current
position. -/
def commaLeads (l : PyStr) : Bool :=
  (l.dropWhile isPySpace).head? == some ','

/-- Scanner for step 2 of `normalize_triplet`,
`re.sub(r'\s*,\s*', ', ', s)`: each maximal group of optional
whitespace, a comma and optional trailing whitespace is replaced by
`", "`.  The flag records that the previous characters were a comma
emission whose trailing `\s*` is still being consumed. -/
def subCommaWsGo : Bool → PyStr → PyStr
  | _, [] => []
  | skipWs, c :: cs =>
    if skipWs && isPySpace c then subCommaWsGo true cs
    else if c == ',' then ',' :: ' ' :: subCommaWsGo true cs
    else if isPySpace c && commaLeads cs then subCommaWsGo false cs
    else c :: subCommaWsGo false cs

/-- Step 2 of `normalize_triplet`: `re.sub(r'\s*,\s*', ', ', s)`. -/
def subCommaWs (l : PyStr) : PyStr :=
  subCommaWsGo false l

mutual

/-- Step 3 of `normalize_triplet`: `re.sub(r'\([^)]*\)', '', s)` — a
literal `'('` whose suffix still contains a `')'` starts a match that
consumes everything up to and including the first `')'`. -/
def subParens : PyStr → PyStr
  | [] => []
  | c :: cs =>
    if c == '(' && cs.contains ')' then subParensSkip cs
    else c :: subParens cs

/-- Inside a `\([^)]*\)` match: drop characters up to and including the
first `')'`, then resume scanning. -/
def subParensSkip : PyStr → PyStr
  | [] => []
  | c :: cs => if c == ')' then subParens cs else subParensSkip cs

end

/-- Scanner for step 4 of `normalize_triplet`,
`re.sub(r'\s+', ' ', s)`: each maximal whitespace run becomes a single
space.  The flag records that the previous character was part of a run
whose single replacement space has already been emitted. -/
def subWsRunsGo : Bool → PyStr → PyStr
  | _, [] => []
  | inRun, c :: cs =>
    if isPySpace c then
      if inRun then subWsRunsGo true cs else ' ' :: subWsRunsGo true cs
    else c :: subWsRunsGo false cs

/-- Step 4 of `normalize_triplet`: `re.sub(r'\s+', ' ', s)`. -/
def subWsRuns (l : PyStr) : PyStr :=
  subWsRunsGo false l

/-- Step 5 of `normalize_triplet`: Python `str.strip()` — remove leading
and trailing whitespace. -/
def pyStrip (l : PyStr) : PyStr :=
  ((l.dropWhile isPySpace).reverse.dropWhile isPySpace).reverse

/-- `normalize_triplet` (evaluate.py lines 11–22): remove all brackets,
normalize comma separators to `", "`, strip `(...)` annotations,
collapse whitespace runs, and trim the ends. -/
def normalize_triplet (l : PyStr) : PyStr :=
  pyStrip (subWsRuns (subParens (subCommaWs (removeBrackets l))))

/-- `normalize_triplet` with its third step (`re.sub(r'\([^)]*\)', '', ...)`,
evaluate.py line 20) removed; used to compare against the full pipeline. -/
def normalizeTripletNoStep3 (l : PyStr) : PyStr :=
  pyStrip (subWsRuns (subCommaWs (removeBrackets l)))

/-- A parsed triple: `(subject, predicate, object)`, each a string. -/
abbrev Triplet := PyStr × PyStr × PyStr

/-- The f-string rendering `f"({s}, {p}, {o})"` used by
`calculate_metrics` before normalization (evaluate.py lines 114–115). -/
def renderTriplet (t : Triplet) : PyStr :=
  '(' :: t.1 ++ ',' :: ' ' :: t.2.1 ++ ',' :: ' ' :: t.2.2 ++ [')']

/-- Normalized rendering of a triple:
`normalize_triplet(f"({s}, {p}, {o})")`. -/
def normTriplet (t : Triplet) : PyStr :=
  normalize_triplet (renderTriplet t)

/-! ## difflib.SequenceMatcher(None, a, b).ratio()

Embedding of CPython's `difflib` ratio computation as used by
`is_similar_entity` (evaluate.py line 79): `isjunk` is `None`, so the
junk set is empty and the junk-extension loops of `find_longest_match`
never fire; `autojunk` is active, so when `len(b) >= 200` the elements
occurring more than `len(b) // 100 + 1` times are dropped from the
index `b2j`.  `ratio` is `2 * M / (len(a) + len(b))` where `M` is the
total size of the matching blocks; merging adjacent blocks does not
change `M`, so it is not modelled. -/

/-- `b2j`: the ascending list of indices at which `c` occurs in `b`,
emptied for "popular" elements when `autojunk` applies. -/
def b2j (b : List Char) (c : Char) : List Nat :=
  let idxs := (List.range b.length).filter (fun j => b.getD j ' ' == c)
  if b.length ≥ 200 && idxs.length > b.length / 100 + 1 then [] else idxs

/-- Inner loop of `find_longest_match` over `b2j[a[i]]`: `j < blo` is
skipped, `j ≥ bhi` breaks, otherwise `k = j2len.get(j-1, 0) + 1` is
recorded in the new table and the best block is updated when `k`
exceeds it.  Returns the new table and best `(i, j, size)`. -/
def flmInner (j2len : Nat → Nat) (blo bhi i : Nat) :
    List Nat → (Nat → Nat) → Nat × Nat × Nat → (Nat → Nat) × (Nat × Nat × Nat)
  | [], new, best => (new, best)
  | j :: js, new, best =>
    if j < blo then flmInner j2len blo bhi i js new best
    else if j ≥ bhi then (new, best)
    else
      let k := (if j = 0 then 0 else j2len (j - 1)) + 1
      let new2 := fun x => if x = j then k else new x
      let best2 := if k > best.2.2 then (i + 1 - k, j + 1 - k, k) else best
      flmInner j2len blo bhi i js new2 best2

/-- Outer loop of `find_longest_match` over `i in range(alo, ahi)`. -/
def flmOuter (a b : List Char) (blo bhi : Nat) :
    List Nat → (Nat → Nat) → Nat × Nat × Nat → Nat × Nat × Nat
  | [], _, best => best
  | i :: is, j2len, best =>
    let r := flmInner j2len blo bhi i (b2j b (a.getD i ' ')) (fun _ => 0) best
    flmOuter a b blo bhi is r.1 r.2

/-- The `while besti > alo and bestj > blo and a[besti-1] == b[bestj-1]`
extension loop (the junk variant never fires since the junk set is
empty); the fuel is an upper bound on `besti`. -/
def extendLeft (a b : List Char) (alo blo : Nat) :
    Nat → Nat × Nat × Nat → Nat × Nat × Nat
  | 0, best => best
  | fuel + 1, (besti, bestj, bestsize) =>
    if besti > alo && bestj > blo &&
        a.getD (besti - 1) ' ' == b.getD (bestj - 1) ' ' then
      extendLeft a b alo blo fuel (besti - 1, bestj - 1, bestsize + 1)
    else (besti, bestj, bestsize)

/-- The matching right-extension loop; the fuel is an upper bound on
the number of extensions. -/
def extendRight (a b : List Char) (ahi bhi : Nat) :
    Nat → Nat × Nat × Nat → Nat × Nat × Nat
  | 0, best => best
  | fuel + 1, (besti, bestj, bestsize) =>
    if besti + bestsize < ahi && bestj + bestsize < bhi &&
        a.getD (besti + bestsize) ' ' == b.getD (bestj + bestsize) ' ' then
      extendRight a b ahi bhi fuel (besti, bestj, bestsize + 1)
    else (besti, bestj, bestsize)

/-- `find_longest_match(alo, ahi, blo, bhi)` with `isjunk = None`. -/
def findLongestMatch (a b : List Char) (alo ahi blo bhi : Nat) :
    Nat × Nat × Nat :=
  let best := flmOuter a b blo bhi (List.range' alo (ahi - alo))
    (fun _ => 0) (alo, blo, 0)
  let best := extendLeft a b alo blo best.1 best
  extendRight a b ahi bhi ahi best

/-- Total size of the matching blocks found by the recursive splitting
of `get_matching_blocks` (the exploration order of the work queue does
not affect the sum).  The fuel bounds the recursion depth, which is at
most the length of the `a`-interval. -/
def matchingSum (a b : List Char) : Nat → Nat → Nat → Nat → Nat → Nat
  | 0, _, _, _, _ => 0
  | fuel + 1, alo, ahi, blo, bhi =>
    let m := findLongestMatch a b alo ahi blo bhi
    let i := m.1
    let j := m.2.1
    let k := m.2.2
    if k = 0 then 0
    else
      k + (if alo < i && blo < j then matchingSum a b fuel alo i blo j else 0)
        + (if i + k < ahi && j + k < bhi then
             matchingSum a b fuel (i + k) ahi (j + k) bhi
           else 0)

/-- `SequenceMatcher(None, a, b).ratio()`:
`2 * matches / (len(a) + len(b))`, and `1.0` when both are empty. -/
def sequenceMatcherRatio (a b : List Char) : ℚ :=
  let numMatches := matchingSum a b (a.length + 1) 0 a.length 0 b.length
  if a.length + b.length > 0 then
    2 * (numMatches : ℚ) / ((a.length : ℚ) + (b.length : ℚ))
  else 1

/-! ## Entity similarity, deduplication, and type extraction -/

/-- Python's substring test `xs in ys` (contiguous containment). -/
def isSubstrList (xs : List Char) : List Char → Bool
  | [] => xs.isEmpty
  | y :: ys => xs.isPrefixOf (y :: ys) || isSubstrList xs ys

/-- The entity content used for similarity:
`entity.split(':', 1)[1] if ':' in entity else entity`. -/
def entityContent (entity : PyStr) : PyStr :=
  if ':' ∈ entity then (entity.dropWhile (fun c => c != ':')).tail else entity

/-- `is_similar_entity` (evaluate.py lines 65–86): equal strings match;
otherwise the type prefixes are stripped, the difflib similarity of the
contents is computed, containment of one content in the other matches,
and otherwise the similarity is compared with the threshold. -/
def is_similar_entity (entity1 entity2 : PyStr) (threshold : ℚ := 0.8) : Bool :=
  if entity1 == entity2 then true
  else
    let content1 := entityContent entity1
    let content2 := entityContent entity2
    let similarity := sequenceMatcherRatio content1 content2
    if isSubstrList content1 content2 || isSubstrList content2 content1 then true
    else decide (similarity ≥ threshold)

/-- `extract_entity_type` (evaluate.py lines 48–55):
`entity.split(':', 1)[0]`, or `"未知类型"` when there is no colon. -/
def extract_entity_type (entity : PyStr) : PyStr :=
  if ':' ∈ entity then entity.takeWhile (fun c => c != ':')
  else "未知类型".data

/-- `extract_relation_type` (evaluate.py lines 58–62): the relation
string itself. -/
def extract_relation_type (relation : PyStr) : PyStr :=
  relation

/-- The accumulator loop of `deduplicate_entities`: an entity similar
to an already-accepted one is dropped, otherwise it is appended. -/
def dedupGo (threshold : ℚ) : List PyStr → List PyStr → List PyStr
  | [], unique => unique
  | e :: es, unique =>
    if unique.any (fun u => is_similar_entity e u threshold) then
      dedupGo threshold es unique
    else dedupGo threshold es (unique ++ [e])

/-- `deduplicate_entities` (evaluate.py lines 89–106). -/
def deduplicate_entities (entities : List PyStr) (threshold : ℚ := 0.8) :
    List PyStr :=
  dedupGo threshold entities []

/-! ## Metric calculators

The three calculators of evaluate.py share one greedy matching loop:
for each gold item in order, the working copy of the predicted list is
scanned left to right and the first item satisfying the equality
predicate is removed (`for j, pred in enumerate(pred_remaining): if eq:
pred_remaining.pop(j); break`). -/

/-- Scan a list left to right and remove the first element satisfying
`p`; `none` when no element satisfies it. -/
def findRemove (p : α → Bool) : List α → Option (List α)
  | [] => none
  | x :: xs => if p x then some xs else (findRemove p xs).map (x :: ·)

/-- `precision = tp / (tp + fp) if (tp + fp) > 0 else 0`. -/
def precisionOf (tp fp : Nat) : ℚ :=
  if tp + fp > 0 then (tp : ℚ) / ((tp : ℚ) + (fp : ℚ)) else 0

/-- `recall' = tp / (tp + fn) if (tp + fn) > 0 else 0`. -/
def recallOf (tp fn : Nat) : ℚ :=
  if tp + fn > 0 then (tp : ℚ) / ((tp : ℚ) + (fn : ℚ)) else 0

/-- `f1 = 2 * precision * recall' / (precision + recall') if (precision +
recall') > 0 else 0`. -/
def f1Of (p r : ℚ) : ℚ :=
  if p + r > 0 then 2 * p * r / (p + r) else 0

/-- State of the triple-level matching loop (evaluate.py lines
126–141): `tp`, `fn`, the unmatched original gold triples, and the
remaining working copy of normalized predicted strings. -/
structure TripletLoopOut where
  tp : Nat
  fn : Nat
  unmatched_gold : List Triplet
  remaining : List PyStr
deriving Repr, DecidableEq

/-- The `for i, gold_triplet in enumerate(gold_normalized)` loop of
`calculate_metrics`: gold items are paired with their original triples,
and each is matched against the working copy by exact equality of
normalized strings. -/
def tripletLoop : List (PyStr × Triplet) → List PyStr → TripletLoopOut
  | [], rem => ⟨0, 0, [], rem⟩
  | (gn, gt) :: rest, rem =>
    match findRemove (fun p => gn == p) rem with
    | some rem2 =>
      let r := tripletLoop rest rem2
      { r with tp := r.tp + 1 }
    | none =>
      let r := tripletLoop rest rem
      { r with fn := r.fn + 1, unmatched_gold := gt :: r.unmatched_gold }

/-- Result record of `calculate_metrics`. -/
structure TripletMetrics where
  tp : Nat
  fp : Nat
  fn : Nat
  precision : ℚ
  recall' : ℚ
  f1 : ℚ
  unmatched_gold : List Triplet
  unmatched_pred : List Triplet

/-- `calculate_metrics` (evaluate.py lines 109–166): normalize both
lists, match greedily by exact equality of normalized strings, count
the leftover working copy as false positives, and recover each leftover
as the first original predicted triple with the same normalized form. -/
def calculate_metrics (gold_triplets pred_triplets : List Triplet) :
    TripletMetrics :=
  let gold_normalized := gold_triplets.map normTriplet
  let pred_normalized := pred_triplets.map normTriplet
  let r := tripletLoop (gold_normalized.zip gold_triplets) pred_normalized
  let fp := r.remaining.length
  let unmatched_pred := r.remaining.filterMap
    (fun pn => pred_triplets.find? (fun t => normTriplet t == pn))
  let precision := precisionOf r.tp fp
  let recall' := recallOf r.tp r.fn
  { tp := r.tp, fp := fp, fn := r.fn,
    precision := precision, recall' := recall', f1 := f1Of precision recall',
    unmatched_gold := r.unmatched_gold, unmatched_pred := unmatched_pred }

/-- A `{'tp': .., 'fp': .., 'fn': ..}` record of the per-type
`defaultdict` tables. -/
structure TypeCounts where
  tp : Nat := 0
  fp : Nat := 0
  fn : Nat := 0
deriving Repr, DecidableEq

/-- A per-type statistics table, in insertion order like a Python
`defaultdict`. -/
abbrev TypeTable := List (PyStr × TypeCounts)

/-- Read a key from the table; missing keys give zero counts, as in a
`defaultdict`. -/
def tableGet (st : TypeTable) (k : PyStr) : TypeCounts :=
  match st.find? (fun e => e.1 == k) with
  | some e => e.2
  | none => {}

/-- `stats[key][field] += 1`: update the entry in place, or append a
fresh zero entry, preserving Python's dict insertion order. -/
def tableBump (st : TypeTable) (k : PyStr) (f : TypeCounts → TypeCounts) :
    TypeTable :=
  match st with
  | [] => [(k, f {})]
  | e :: rest =>
    if e.1 == k then (e.1, f e.2) :: rest else e :: tableBump rest k f

/-- State of the entity/relation matching loop: counts, unmatched gold
items, the remaining working copy, and the per-type table. -/
structure StatLoopOut where
  tp : Nat
  fn : Nat
  unmatched_gold : List PyStr
  remaining : List PyStr
  stats : TypeTable
deriving Repr, DecidableEq

/-- The shared gold loop of `calculate_entity_metrics` (lines 210–224)
and `calculate_relation_metrics` (lines 288–302), parameterized by the
equality predicate and the type extractor: a match increments `tp` and
the gold item's type bucket, a miss increments `fn`, records the gold
item, and bumps its type bucket. -/
def statLoop (eq : PyStr → PyStr → Bool) (typeOf : PyStr → PyStr) :
    List PyStr → List PyStr → TypeTable → StatLoopOut
  | [], rem, st => ⟨0, 0, [], rem, st⟩
  | g :: gs, rem, st =>
    match findRemove (fun p => eq g p) rem with
    | some rem2 =>
      let r := statLoop eq typeOf gs rem2
        (tableBump st (typeOf g) (fun c => { c with tp := c.tp + 1 }))
      { r with tp := r.tp + 1 }
    | none =>
      let r := statLoop eq typeOf gs rem
        (tableBump st (typeOf g) (fun c => { c with fn := c.fn + 1 }))
      { r with fn := r.fn + 1, unmatched_gold := g :: r.unmatched_gold }

/-- The `for pred in pred_remaining: stats[type]['fp'] += 1` loop run
after the gold loop (lines 231–233 and 309–311). -/
def fpPhase (typeOf : PyStr → PyStr) : List PyStr → TypeTable → TypeTable
  | [], st => st
  | p :: ps, st =>
    fpPhase typeOf ps (tableBump st (typeOf p) (fun c => { c with fp := c.fp + 1 }))

/-- A per-type record after the derived metrics have been filled in
(lines 236–248 and 314–326). -/
structure TypeStatsFull where
  tp : Nat
  fp : Nat
  fn : Nat
  precision : ℚ
  recall' : ℚ
  f1 : ℚ

/-- Fill in the zero-guarded precision/recall/F1 of one type bucket. -/
def mkFullStats (c : TypeCounts) : TypeStatsFull :=
  let p := precisionOf c.tp c.fp
  let r := recallOf c.tp c.fn
  { tp := c.tp, fp := c.fp, fn := c.fn,
    precision := p, recall' := r, f1 := f1Of p r }

/-- Result record of `calculate_entity_metrics` and
`calculate_relation_metrics`. -/
structure LevelMetrics where
  tp : Nat
  fp : Nat
  fn : Nat
  precision : ℚ
  recall' : ℚ
  f1 : ℚ
  unmatched_gold : List PyStr
  unmatched_pred : List PyStr
  type_stats : List (PyStr × TypeStatsFull)

/-- Assemble a `LevelMetrics` from a finished gold loop. -/
def mkLevelMetrics (typeOf : PyStr → PyStr) (r : StatLoopOut) : LevelMetrics :=
  let fp := r.remaining.length
  let st := fpPhase typeOf r.remaining r.stats
  let precision := precisionOf r.tp fp
  let recall' := recallOf r.tp r.fn
  { tp := r.tp, fp := fp, fn := r.fn,
    precision := precision, recall' := recall', f1 := f1Of precision recall',
    unmatched_gold := r.unmatched_gold, unmatched_pred := r.remaining,
    type_stats := st.map (fun e => (e.1, mkFullStats e.2)) }

/-- `calculate_entity_metrics` (evaluate.py lines 189–265): greedy
matching with `is_similar_entity` at the default threshold `0.8` and
per-entity-type statistics. -/
def calculate_entity_metrics (gold_entities pred_entities : List PyStr) :
    LevelMetrics :=
  mkLevelMetrics extract_entity_type
    (statLoop (fun g p => is_similar_entity g p 0.8) extract_entity_type
      gold_entities pred_entities [])

/-- `calculate_relation_metrics` (evaluate.py lines 268–343): greedy
matching by exact string equality and per-relation statistics. -/
def calculate_relation_metrics (gold_relations pred_relations : List PyStr) :
    LevelMetrics :=
  mkLevelMetrics extract_relation_type
    (statLoop (fun g p => g == p) extract_relation_type
      gold_relations pred_relations [])

/-! ## Corpus aggregation (`process_folders`, evaluate.py lines 552–898)

The aggregator sums the per-file `tp`/`fp`/`fn` for each granularity
and recomputes precision/recall/F1 from the summed counts (lines
663–738).  Only the triple-level aggregation core is embedded here; the
entity and relation aggregations are the same summation shape. -/

/-- Overall counts plus recomputed derived metrics for one
granularity. -/
structure OverallMetrics where
  tp : Nat
  fp : Nat
  fn : Nat
  precision : ℚ
  recall' : ℚ
  f1 : ℚ

/-- The running `overall_triplet_metrics['tp'] += ...` accumulation
over files (lines 663–665): each file pair contributes the counts of
its own `calculate_metrics` run. -/
def sumTripletCounts : List (List Triplet × List Triplet) → Nat × Nat × Nat
  | [] => (0, 0, 0)
  | f :: fs =>
    let m := calculate_metrics f.1 f.2
    let r := sumTripletCounts fs
    (m.tp + r.1, m.fp + r.2.1, m.fn + r.2.2)

/-- The corpus-level triple metrics of `process_folders` (lines
705–714 and 771–778): summed counts with precision/recall/F1 recomputed
from the sums by the zero-guarded formulas. -/
def processFoldersTriplet (files : List (List Triplet × List Triplet)) :
    OverallMetrics :=
  let s := sumTripletCounts files
  let precision := precisionOf s.1 s.2.1
  let recall' := recallOf s.1 s.2.2
  { tp := s.1, fp := s.2.1, fn := s.2.2,
    precision := precision, recall' := recall', f1 := f1Of precision recall' }

/-! ## The greedy matcher as described by the specification -/

/-- Modelled from the spec (§4.5): for each gold item in original
order, scan the working copy of the predicted list left to right; on
the first item satisfying the equality predicate increment the
true-positive count and remove that item; otherwise increment the
false-negative count and record the gold item.  Returns
`(tp, fn, unmatched gold, final working copy)`; the false-positive
count is the size of the final working copy. -/
def greedySpec (eq : α → α → Bool) : List α → List α → Nat × Nat × List α × List α
  | [], rem => (0, 0, [], rem)
  | g :: gs, rem =>
    match findRemove (eq g) rem with
    | some rem2 =>
      let r := greedySpec eq gs rem2
      (r.1 + 1, r.2.1, r.2.2.1, r.2.2.2)
    | none =>
      let r := greedySpec eq gs rem
      (r.1, r.2.1 + 1, g :: r.2.2.1, r.2.2.2)

/-! ## Helper lemmas about the matching loops -/

theorem findRemove_length {p : α → Bool} :
    ∀ {l l' : List α}, findRemove p l = some l' → l'.length + 1 = l.length := by
  intro l
  induction l with
  | nil => intro l' h; simp [findRemove] at h
  | cons x xs ih =>
    intro l' h
    simp only [findRemove] at h
    by_cases hp : p x
    · simp [hp] at h; simp [← h]
    · simp [hp] at h
      obtain ⟨t, ht, rfl⟩ := h
      simp [← ih ht]

theorem findRemove_sublist {p : α → Bool} :
    ∀ {l l' : List α}, findRemove p l = some l' → l'.Sublist l := by
  intro l
  induction l with
  | nil => intro l' h; simp [findRemove] at h
  | cons x xs ih =>
    intro l' h
    simp only [findRemove] at h
    by_cases hp : p x
    · simp [hp] at h; subst h; exact List.sublist_cons_self x xs
    · simp [hp] at h
      obtain ⟨t, ht, rfl⟩ := h
      exact (ih ht).cons₂ x

theorem findRemove_map (f : α → β) (p : β → Bool) :
    ∀ l : List α,
      findRemove p (l.map f) = (findRemove (fun a => p (f a)) l).map (List.map f) := by
  intro l
  induction l with
  | nil => simp [findRemove]
  | cons x xs ih =>
    simp only [List.map_cons, findRemove, ih]
    by_cases hp : p (f x)
    · simp [hp]
    · simp [hp, Option.map_map]
      rfl

theorem findRemove_count {g : PyStr} :
    ∀ {l l' : List PyStr}, findRemove (fun p => g == p) l = some l' →
      ∀ t, l.count t = l'.count t + (if g = t then 1 else 0) := by
  intro l
  induction l with
  | nil => intro l' h; simp [findRemove] at h
  | cons x xs ih =>
    intro l' h t
    simp only [findRemove] at h
    by_cases hp : g = x
    · subst hp
      simp at h
      subst h
      by_cases hgt : g = t <;> simp [List.count_cons, hgt]
    · simp [beq_iff_eq, hp] at h
      obtain ⟨l'', h'', rfl⟩ := h
      by_cases hxt : x = t <;> simp [List.count_cons, hxt, ih h''] <;> omega

theorem greedySpec_tp_add_fn (eq : α → α → Bool) :
    ∀ (gold rem : List α),
      (greedySpec eq gold rem).1 + (greedySpec eq gold rem).2.1 = gold.length := by
  intro gold
  induction gold with
  | nil => intro rem; simp [greedySpec]
  | cons g gs ih =>
    intro rem
    simp only [greedySpec]
    cases h : findRemove (eq g) rem with
    | some rem2 => simpa [Nat.add_right_comm] using ih rem2
    | none => simpa [← Nat.add_assoc] using ih rem

theorem greedySpec_tp_add_rem (eq : α → α → Bool) :
    ∀ (gold rem : List α),
      (greedySpec eq gold rem).1 + (greedySpec eq gold rem).2.2.2.length
        = rem.length := by
  intro gold
  induction gold with
  | nil => intro rem; simp [greedySpec]
  | cons g gs ih =>
    intro rem
    simp only [greedySpec]
    cases h : findRemove (eq g) rem with
    | some rem2 =>
      have := findRemove_length h
      have := ih rem2
      simp only []
      omega
    | none => exact ih rem

theorem greedySpec_rem_sublist (eq : α → α → Bool) :
    ∀ (gold rem : List α), (greedySpec eq gold rem).2.2.2.Sublist rem := by
  intro gold
  induction gold with
  | nil => intro rem; simp [greedySpec]
  | cons g gs ih =>
    intro rem
    simp only [greedySpec]
    cases h : findRemove (eq g) rem with
    | some rem2 => exact (ih rem2).trans (findRemove_sublist h)
    | none => exact ih rem

/-- The equality predicate used by `calculate_metrics`: exact equality
of the normalized renderings. -/
def eqNormTriplet (g p : Triplet) : Bool :=
  normTriplet g == normTriplet p

/-- The triple loop of `calculate_metrics`, which first normalizes both
lists and then matches the strings, computes the same counts as the
spec's greedy matcher applied to the original triples with the
normalized-equality predicate; its working copy is the normalized image
of the matcher's working copy. -/
theorem tripletLoop_eq_greedySpec :
    ∀ (gold rem : List Triplet),
      tripletLoop ((gold.map normTriplet).zip gold) (rem.map normTriplet) =
        { tp := (greedySpec eqNormTriplet gold rem).1,
          fn := (greedySpec eqNormTriplet gold rem).2.1,
          unmatched_gold := (greedySpec eqNormTriplet gold rem).2.2.1,
          remaining := (greedySpec eqNormTriplet gold rem).2.2.2.map normTriplet } := by
  intro gold
  induction gold with
  | nil => intro rem; simp [tripletLoop, greedySpec]
  | cons g gs ih =>
    intro rem
    simp only [List.map_cons, List.zip_cons_cons, tripletLoop, greedySpec]
    rw [findRemove_map normTriplet (fun p => normTriplet g == p) rem]
    rw [show findRemove (fun a => normTriplet g == normTriplet a) rem
          = findRemove (eqNormTriplet g) rem from rfl]
    cases h : findRemove (eqNormTriplet g) rem with
    | some rem2 =>
      simp only [h, Option.map_some']
      rw [show List.zipWith Prod.mk (List.map normTriplet gs) gs
            = (List.map normTriplet gs).zip gs from rfl, ih rem2]
    | none =>
      simp only [h, Option.map_none']
      rw [show List.zipWith Prod.mk (List.map normTriplet gs) gs
            = (List.map normTriplet gs).zip gs from rfl, ih rem]

/-- The shared entity/relation gold loop computes the same counts,
unmatched list and working copy as the spec's greedy matcher. -/
theorem statLoop_eq_greedySpec (eq : PyStr → PyStr → Bool) (typeOf : PyStr → PyStr) :
    ∀ (gold rem : List PyStr) (st : TypeTable),
      (statLoop eq typeOf gold rem st).tp = (greedySpec eq gold rem).1 ∧
      (statLoop eq typeOf gold rem st).fn = (greedySpec eq gold rem).2.1 ∧
      (statLoop eq typeOf gold rem st).unmatched_gold
        = (greedySpec eq gold rem).2.2.1 ∧
      (statLoop eq typeOf gold rem st).remaining
        = (greedySpec eq gold rem).2.2.2 := by
  intro gold
  induction gold with
  | nil => intro rem st; simp [statLoop, greedySpec]
  | cons g gs ih =>
    intro rem st
    simp only [statLoop, greedySpec]
    rw [show findRemove (fun p => eq g p) rem = findRemove (eq g) rem from rfl]
    cases h : findRemove (eq g) rem with
    | some rem2 =>
      have := ih rem2 (tableBump st (typeOf g) (fun c => { c with tp := c.tp + 1 }))
      simp [h, this.1, this.2.1, this.2.2.1, this.2.2.2]
    | none =>
      have := ih rem (tableBump st (typeOf g) (fun c => { c with fn := c.fn + 1 }))
      simp [h, this.1, this.2.1, this.2.2.1, this.2.2.2]

/-- Claim C1: each metric calculator performs greedy one-to-one
matching — gold items in original order, the working copy scanned left
to right, the first predicate match consumed as a true positive, a gold
item with no match counted as a false negative and recorded, and the
final working copy counted as false positives — and at the triple level
the predicate is exact equality of the normalized string forms, with no
similarity threshold. -/
theorem claim1_greedy_matching (gold pred : List Triplet)
    (goldE predE goldR predR : List PyStr) :
    ((calculate_metrics gold pred).tp
        = (greedySpec (fun g p => normTriplet g == normTriplet p) gold pred).1 ∧
      (calculate_metrics gold pred).fn
        = (greedySpec (fun g p => normTriplet g == normTriplet p) gold pred).2.1 ∧
      (calculate_metrics gold pred).unmatched_gold
        = (greedySpec (fun g p => normTriplet g == normTriplet p) gold pred).2.2.1 ∧
      (calculate_metrics gold pred).fp
        = (greedySpec (fun g p => normTriplet g == normTriplet p) gold pred).2.2.2.length) ∧
    ((calculate_entity_metrics goldE predE).tp
        = (greedySpec (fun g p => is_similar_entity g p 0.8) goldE predE).1 ∧
      (calculate_entity_metrics goldE predE).fn
        = (greedySpec (fun g p => is_similar_entity g p 0.8) goldE predE).2.1 ∧
      (calculate_entity_metrics goldE predE).unmatched_gold
        = (greedySpec (fun g p => is_similar_entity g p 0.8) goldE predE).2.2.1 ∧
      (calculate_entity_metrics goldE predE).fp
        = (greedySpec (fun g p => is_similar_entity g p 0.8) goldE predE).2.2.2.length) ∧
    ((calculate_relation_metrics goldR predR).tp
        = (greedySpec (fun g p => g == p) goldR predR).1 ∧
      (calculate_relation_metrics goldR predR).fn
        = (greedySpec (fun g p => g == p) goldR predR).2.1 ∧
      (calculate_relation_metrics goldR predR).unmatched_gold
        = (greedySpec (fun g p => g == p) goldR predR).2.2.1 ∧
      (calculate_relation_metrics goldR predR).fp
        = (greedySpec (fun g p => g == p) goldR predR).2.2.2.length) := by
  refine ⟨?_, ?_, ?_⟩
  · have h := tripletLoop_eq_greedySpec gold pred
    have he : greedySpec (fun g p => normTriplet g == normTriplet p) gold pred
        = greedySpec eqNormTriplet gold pred := rfl
    simp [calculate_metrics, h, he]
  · have h := statLoop_eq_greedySpec (fun g p => is_similar_entity g p 0.8)
      extract_entity_type goldE predE []
    simp [calculate_entity_metrics, mkLevelMetrics, h.1, h.2.1, h.2.2.1, h.2.2.2]
  · have h := statLoop_eq_greedySpec (fun g p => g == p)
      extract_relation_type goldR predR []
    simp [calculate_relation_metrics, mkLevelMetrics, h.1, h.2.1, h.2.2.1, h.2.2.2]

/-! ## Per-type bucket lemmas -/

theorem tableGet_nil (t : PyStr) : tableGet [] t = {} := rfl

theorem tableGet_cons (e : PyStr × TypeCounts) (rest : TypeTable) (t : PyStr) :
    tableGet (e :: rest) t = if e.1 = t then e.2 else tableGet rest t := by
  by_cases h : e.1 = t
  · simp only [tableGet]
    rw [List.find?_cons_of_pos _ (by simp [h])]
    simp [h]
  · simp only [tableGet]
    rw [List.find?_cons_of_neg _ (by simp [h])]
    simp [h, tableGet]

theorem tableGet_bump (st : TypeTable) (k t : PyStr) (f : TypeCounts → TypeCounts) :
    tableGet (tableBump st k f) t
      = if t = k then f (tableGet st k) else tableGet st t := by
  induction st with
  | nil =>
    simp only [tableBump]
    rw [tableGet_cons]
    by_cases h : t = k
    · simp [h, tableGet_nil]
    · have : ¬ k = t := fun h' => h h'.symm
      simp [h, this, tableGet_nil]
  | cons e rest ih =>
    simp only [tableBump]
    by_cases hek : e.1 = k
    · rw [if_pos (by simp [hek])]
      rw [tableGet_cons, tableGet_cons, tableGet_cons]
      by_cases het : e.1 = t
      · have htk : t = k := het.symm.trans hek
        simp [het, htk, hek]
      · have htk : ¬ t = k := fun h' => het (hek.trans h'.symm)
        simp [het, htk]
    · rw [if_neg (by simp [hek])]
      simp only [tableGet_cons, ih]
      by_cases het : e.1 = t
      · have htk : ¬ t = k := fun h' => hek (het.trans h')
        simp [het, htk]
      · simp [het, hek]

theorem statLoop_stats_cons_some {eq : PyStr → PyStr → Bool} {typeOf : PyStr → PyStr}
    {g : PyStr} {gs rem rem2 : List PyStr} {st : TypeTable}
    (h : findRemove (fun p => eq g p) rem = some rem2) :
    (statLoop eq typeOf (g :: gs) rem st).stats
      = (statLoop eq typeOf gs rem2
          (tableBump st (typeOf g) (fun c => { c with tp := c.tp + 1 }))).stats := by
  simp [statLoop, h]

theorem statLoop_stats_cons_none {eq : PyStr → PyStr → Bool} {typeOf : PyStr → PyStr}
    {g : PyStr} {gs rem : List PyStr} {st : TypeTable}
    (h : findRemove (fun p => eq g p) rem = none) :
    (statLoop eq typeOf (g :: gs) rem st).stats
      = (statLoop eq typeOf gs rem
          (tableBump st (typeOf g) (fun c => { c with fn := c.fn + 1 }))).stats := by
  simp [statLoop, h]

theorem statLoop_rem_cons_some {eq : PyStr → PyStr → Bool} {typeOf : PyStr → PyStr}
    {g : PyStr} {gs rem rem2 : List PyStr} {st : TypeTable}
    (h : findRemove (fun p => eq g p) rem = some rem2) :
    (statLoop eq typeOf (g :: gs) rem st).remaining
      = (statLoop eq typeOf gs rem2
          (tableBump st (typeOf g) (fun c => { c with tp := c.tp + 1 }))).remaining := by
  simp [statLoop, h]

theorem statLoop_rem_cons_none {eq : PyStr → PyStr → Bool} {typeOf : PyStr → PyStr}
    {g : PyStr} {gs rem : List PyStr} {st : TypeTable}
    (h : findRemove (fun p => eq g p) rem = none) :
    (statLoop eq typeOf (g :: gs) rem st).remaining
      = (statLoop eq typeOf gs rem
          (tableBump st (typeOf g) (fun c => { c with fn := c.fn + 1 }))).remaining := by
  simp [statLoop, h]

theorem statLoop_bucket_gold (eq : PyStr → PyStr → Bool) (typeOf : PyStr → PyStr) :
    ∀ (gold rem : List PyStr) (st : TypeTable) (t : PyStr),
      (tableGet (statLoop eq typeOf gold rem st).stats t).tp
          + (tableGet (statLoop eq typeOf gold rem st).stats t).fn
        = (tableGet st t).tp + (tableGet st t).fn
          + (gold.filter (fun g => typeOf g == t)).length := by
  intro gold
  induction gold with
  | nil => intro rem st t; simp [statLoop]
  | cons g gs ih =>
    intro rem st t
    cases h : findRemove (fun p => eq g p) rem with
    | some rem2 =>
      rw [statLoop_stats_cons_some h, ih, tableGet_bump, List.filter_cons]
      by_cases ht : typeOf g = t
      · rw [if_pos ht.symm]
        simp [ht] <;> omega
      · rw [if_neg (fun h' => ht h'.symm)]
        simp [ht] <;> omega
    | none =>
      rw [statLoop_stats_cons_none h, ih, tableGet_bump, List.filter_cons]
      by_cases ht : typeOf g = t
      · rw [if_pos ht.symm]
        simp [ht] <;> omega
      · rw [if_neg (fun h' => ht h'.symm)]
        simp [ht] <;> omega

theorem statLoop_bucket_fp (eq : PyStr → PyStr → Bool) (typeOf : PyStr → PyStr) :
    ∀ (gold rem : List PyStr) (st : TypeTable) (t : PyStr),
      (tableGet (statLoop eq typeOf gold rem st).stats t).fp
        = (tableGet st t).fp := by
  intro gold
  induction gold with
  | nil => intro rem st t; simp [statLoop]
  | cons g gs ih =>
    intro rem st t
    cases h : findRemove (fun p => eq g p) rem with
    | some rem2 =>
      rw [statLoop_stats_cons_some h, ih, tableGet_bump]
      by_cases ht : t = typeOf g <;> simp [ht]
    | none =>
      rw [statLoop_stats_cons_none h, ih, tableGet_bump]
      by_cases ht : t = typeOf g <;> simp [ht]

theorem fpPhase_get (typeOf : PyStr → PyStr) :
    ∀ (ps : List PyStr) (st : TypeTable) (t : PyStr),
      (tableGet (fpPhase typeOf ps st) t).tp = (tableGet st t).tp ∧
      (tableGet (fpPhase typeOf ps st) t).fn = (tableGet st t).fn ∧
      (tableGet (fpPhase typeOf ps st) t).fp
        = (tableGet st t).fp + (ps.filter (fun p => typeOf p == t)).length := by
  intro ps
  induction ps with
  | nil => intro st t; simp [fpPhase]
  | cons p ps ih =>
    intro st t
    simp only [fpPhase, List.filter_cons]
    have h := ih (tableBump st (typeOf p) (fun c => { c with fp := c.fp + 1 })) t
    by_cases ht : typeOf p = t
    · refine ⟨?_, ?_, ?_⟩
      · rw [h.1, tableGet_bump, if_pos ht.symm]
        simp [ht]
      · rw [h.2.1, tableGet_bump, if_pos ht.symm]
        simp [ht]
      · rw [h.2.2, tableGet_bump, if_pos ht.symm]
        simp [ht] <;> omega
    · refine ⟨?_, ?_, ?_⟩
      · rw [h.1, tableGet_bump, if_neg (fun h' => ht h'.symm)]
      · rw [h.2.1, tableGet_bump, if_neg (fun h' => ht h'.symm)]
      · rw [h.2.2, tableGet_bump, if_neg (fun h' => ht h'.symm)]
        simp [ht]

theorem statLoop_bucket_rel :
    ∀ (gold rem : List PyStr) (st : TypeTable) (t : PyStr),
      (tableGet (statLoop (fun g p => g == p) extract_relation_type gold rem st).stats t).tp
          + (statLoop (fun g p => g == p) extract_relation_type gold rem st).remaining.count t
        = (tableGet st t).tp + rem.count t := by
  intro gold
  induction gold with
  | nil => intro rem st t; simp [statLoop]
  | cons g gs ih =>
    intro rem st t
    cases h : findRemove (fun p => g == p) rem with
    | some rem2 =>
      have hcount := findRemove_count h t
      rw [statLoop_stats_cons_some h, statLoop_rem_cons_some h, ih, tableGet_bump,
        hcount]
      by_cases ht : t = g
      · rw [if_pos (show t = extract_relation_type g from ht)]
        subst ht
        simp [extract_relation_type] <;> omega
      · rw [if_neg (show ¬ t = extract_relation_type g from ht)]
        have : ¬ g = t := fun h' => ht h'.symm
        simp [this]
    | none =>
      rw [statLoop_stats_cons_none h, statLoop_rem_cons_none h, ih, tableGet_bump]
      by_cases ht : t = g
      · rw [if_pos (show t = extract_relation_type g from ht)]
        simp [extract_relation_type, ht]
      · rw [if_neg (show ¬ t = extract_relation_type g from ht)]

/-- The `(tp, fp, fn)` counts of one type bucket of a result record;
absent keys give zeros, matching `defaultdict` semantics. -/
def bucketCounts (m : LevelMetrics) (t : PyStr) : Nat × Nat × Nat :=
  match m.type_stats.find? (fun e => e.1 == t) with
  | some e => (e.2.tp, e.2.fp, e.2.fn)
  | none => (0, 0, 0)

theorem find?_map_mkFull (st : TypeTable) (t : PyStr) :
    (st.map (fun e => (e.1, mkFullStats e.2))).find? (fun e => e.1 == t)
      = (st.find? (fun e => e.1 == t)).map (fun e => (e.1, mkFullStats e.2)) := by
  induction st with
  | nil => simp
  | cons e rest ih =>
    by_cases h : (e.1 == t) = true
    · simp [List.find?_cons, h]
    · simp [List.find?_cons, h, ih]

theorem bucketCounts_mkLevelMetrics (typeOf : PyStr → PyStr) (r : StatLoopOut)
    (t : PyStr) :
    bucketCounts (mkLevelMetrics typeOf r) t
      = ((tableGet (fpPhase typeOf r.remaining r.stats) t).tp,
         (tableGet (fpPhase typeOf r.remaining r.stats) t).fp,
         (tableGet (fpPhase typeOf r.remaining r.stats) t).fn) := by
  simp only [bucketCounts, mkLevelMetrics, find?_map_mkFull, tableGet]
  cases h : (fpPhase typeOf r.remaining r.stats).find? (fun e => e.1 == t) <;>
    simp [mkFullStats]

/-- Claim C2 (amended): the global identities `tp + fn = |gold|` and
`tp + fp = |pred|` hold at every granularity; in every type bucket
`tp_t + fn_t` equals the number of gold items of type `t`, and for
relation buckets `tp_t + fp_t` equals the number of predicted items of
type `t`.  (For entity buckets `tp_t + fp_t` need not equal the number
of predicted entities of type `t`, because a true positive is bucketed
by the gold entity's type while the consumed predicted entity may have
a different type — see the counterexample.) -/
theorem claim2_amended (gold pred : List Triplet)
    (goldE predE goldR predR : List PyStr) (t : PyStr) :
    ((calculate_metrics gold pred).tp + (calculate_metrics gold pred).fn
        = gold.length ∧
      (calculate_metrics gold pred).tp + (calculate_metrics gold pred).fp
        = pred.length) ∧
    ((calculate_entity_metrics goldE predE).tp
        + (calculate_entity_metrics goldE predE).fn = goldE.length ∧
      (calculate_entity_metrics goldE predE).tp
        + (calculate_entity_metrics goldE predE).fp = predE.length) ∧
    ((calculate_relation_metrics goldR predR).tp
        + (calculate_relation_metrics goldR predR).fn = goldR.length ∧
      (calculate_relation_metrics goldR predR).tp
        + (calculate_relation_metrics goldR predR).fp = predR.length) ∧
    ((bucketCounts (calculate_entity_metrics goldE predE) t).1
        + (bucketCounts (calculate_entity_metrics goldE predE) t).2.2
      = (goldE.filter (fun g => extract_entity_type g == t)).length) ∧
    ((bucketCounts (calculate_relation_metrics goldR predR) t).1
        + (bucketCounts (calculate_relation_metrics goldR predR) t).2.2
      = (goldR.filter (fun g => extract_relation_type g == t)).length) ∧
    ((bucketCounts (calculate_relation_metrics goldR predR) t).1
        + (bucketCounts (calculate_relation_metrics goldR predR) t).2.1
      = (predR.filter (fun p => extract_relation_type p == t)).length) := by
  have hT := tripletLoop_eq_greedySpec gold pred
  have hE := statLoop_eq_greedySpec (fun g p => is_similar_entity g p 0.8)
    extract_entity_type goldE predE []
  have hR := statLoop_eq_greedySpec (fun g p => g == p)
    extract_relation_type goldR predR []
  refine ⟨⟨?_, ?_⟩, ⟨?_, ?_⟩, ⟨?_, ?_⟩, ?_, ?_, ?_⟩
  · have := greedySpec_tp_add_fn eqNormTriplet gold pred
    simpa [calculate_metrics, hT] using this
  · have := greedySpec_tp_add_rem eqNormTriplet gold pred
    have hlen : ((greedySpec eqNormTriplet gold pred).2.2.2.map normTriplet).length
        = (greedySpec eqNormTriplet gold pred).2.2.2.length := by simp
    simp only [calculate_metrics, hT]
    rw [hlen]
    simpa using this
  · have := greedySpec_tp_add_fn (fun g p => is_similar_entity g p 0.8) goldE predE
    simpa [calculate_entity_metrics, mkLevelMetrics, hE.1, hE.2.1] using this
  · have := greedySpec_tp_add_rem (fun g p => is_similar_entity g p 0.8) goldE predE
    simpa [calculate_entity_metrics, mkLevelMetrics, hE.1, hE.2.2.2] using this
  · have := greedySpec_tp_add_fn (fun g p => g == p) goldR predR
    simpa [calculate_relation_metrics, mkLevelMetrics, hR.1, hR.2.1] using this
  · have := greedySpec_tp_add_rem (fun g p => g == p) goldR predR
    simpa [calculate_relation_metrics, mkLevelMetrics, hR.1, hR.2.2.2] using this
  · rw [show calculate_entity_metrics goldE predE
        = mkLevelMetrics extract_entity_type
            (statLoop (fun g p => is_similar_entity g p 0.8) extract_entity_type
              goldE predE []) from rfl,
      bucketCounts_mkLevelMetrics]
    have hph := fpPhase_get extract_entity_type
      (statLoop (fun g p => is_similar_entity g p 0.8) extract_entity_type
        goldE predE []).remaining
      (statLoop (fun g p => is_similar_entity g p 0.8) extract_entity_type
        goldE predE []).stats t
    rw [hph.1, hph.2.1]
    have := statLoop_bucket_gold (fun g p => is_similar_entity g p 0.8)
      extract_entity_type goldE predE [] t
    simpa [tableGet_nil] using this
  · rw [show calculate_relation_metrics goldR predR
        = mkLevelMetrics extract_relation_type
            (statLoop (fun g p => g == p) extract_relation_type
              goldR predR []) from rfl,
      bucketCounts_mkLevelMetrics]
    have hph := fpPhase_get extract_relation_type
      (statLoop (fun g p => g == p) extract_relation_type goldR predR []).remaining
      (statLoop (fun g p => g == p) extract_relation_type goldR predR []).stats t
    rw [hph.1, hph.2.1]
    have := statLoop_bucket_gold (fun g p => g == p)
      extract_relation_type goldR predR [] t
    simpa [tableGet_nil] using this
  · rw [show calculate_relation_metrics goldR predR
        = mkLevelMetrics extract_relation_type
            (statLoop (fun g p => g == p) extract_relation_type
              goldR predR []) from rfl,
      bucketCounts_mkLevelMetrics]
    have hph := fpPhase_get extract_relation_type
      (statLoop (fun g p => g == p) extract_relation_type goldR predR []).remaining
      (statLoop (fun g p => g == p) extract_relation_type goldR predR []).stats t
    rw [hph.1, hph.2.2]
    have hrel := statLoop_bucket_rel goldR predR [] t
    have hfp0 := statLoop_bucket_fp (fun g p => g == p)
      extract_relation_type goldR predR [] t
    have hcnt : ∀ l : List PyStr,
        (l.filter (fun p => extract_relation_type p == t)).length = l.count t := by
      intro l
      rw [show (fun p : PyStr => extract_relation_type p == t)
            = (fun p : PyStr => p == t) from rfl,
        ← List.countP_eq_length_filter]
      rfl
    rw [hcnt, hcnt, hfp0]
    simp [tableGet_nil] at hrel ⊢ <;> omega

/-- Claim C2 is false as stated for entity type buckets: with the gold
entity `"A:x"` and the predicted entity `"B:x"`, the two contents are
equal so the entities match, the true positive is recorded in bucket
`"A"`, and bucket `"A"` then has `tp + fp = 1` although the predicted
list has no entity of type `"A"`. -/
theorem claim2_counterexample :
    ¬ ((bucketCounts (calculate_entity_metrics ["A:x".data] ["B:x".data]) "A".data).1
        + (bucketCounts (calculate_entity_metrics ["A:x".data] ["B:x".data]) "A".data).2.1
      = (["B:x".data].filter
          (fun p => extract_entity_type p == "A".data)).length) := by
  decide

/-! ## Recovery of unmatched predicted triples -/

theorem length_filterMap_eq_of_isSome {f : α → Option β} :
    ∀ {l : List α}, (∀ x ∈ l, (f x).isSome) → (l.filterMap f).length = l.length := by
  intro l
  induction l with
  | nil => intro _; simp
  | cons x xs ih =>
    intro h
    have hx := h x (List.mem_cons_self x xs)
    obtain ⟨b, hb⟩ := Option.isSome_iff_exists.mp hx
    simp [List.filterMap_cons, hb, ih (fun y hy => h y (List.mem_cons_of_mem x hy))]

/-- Claim C10: the unmatched-predicted list returned by
`calculate_metrics` has exactly `fp` elements, each drawn from the
original predicted list; each recorded element is the first triple of
the predicted list whose normalized rendering equals the leftover
normalized string, i.e. the first occurrence of its normalization
class (which may be an occurrence that was consumed as a true
positive). -/
theorem claim10_unmatched_pred (gold pred : List Triplet) :
    (calculate_metrics gold pred).unmatched_pred.length
      = (calculate_metrics gold pred).fp ∧
    ∀ x ∈ (calculate_metrics gold pred).unmatched_pred,
      x ∈ pred ∧ pred.find? (fun u => normTriplet u == normTriplet x) = some x := by
  have hT := tripletLoop_eq_greedySpec gold pred
  have hrem : (tripletLoop ((gold.map normTriplet).zip gold)
      (pred.map normTriplet)).remaining
      = (greedySpec eqNormTriplet gold pred).2.2.2.map normTriplet := by
    rw [hT]
  have hsub := greedySpec_rem_sublist eqNormTriplet gold pred
  constructor
  · show ((tripletLoop ((gold.map normTriplet).zip gold)
        (pred.map normTriplet)).remaining.filterMap
          (fun pn => pred.find? (fun u => normTriplet u == pn))).length
      = (tripletLoop ((gold.map normTriplet).zip gold)
          (pred.map normTriplet)).remaining.length
    apply length_filterMap_eq_of_isSome
    intro pn hpn
    rw [hrem] at hpn
    obtain ⟨u, hu, rfl⟩ := List.mem_map.mp hpn
    have hu' : u ∈ pred := hsub.mem hu
    rw [List.find?_isSome]
    exact ⟨u, hu', by simp⟩
  · intro x hx
    have hx' : x ∈ (tripletLoop ((gold.map normTriplet).zip gold)
        (pred.map normTriplet)).remaining.filterMap
          (fun pn => pred.find? (fun u => normTriplet u == pn)) := hx
    obtain ⟨pn, hpn, hfind⟩ := List.mem_filterMap.mp hx'
    have hpx := @List.find?_some _ (fun u => normTriplet u == pn) x pred hfind
    have hpn' : normTriplet x = pn := by simpa using hpx
    exact ⟨List.mem_of_find?_eq_some hfind, hpn' ▸ hfind⟩

/-- Claim C10 at a concrete input: with no gold triples and one
predicted triple, that triple is recorded as unmatched-predicted and is
the first occurrence of its normalization class. -/
theorem claim10_witness :
    ((['a'], ['b'], ['c']) : Triplet)
        ∈ (calculate_metrics [] [(['a'], ['b'], ['c'])]).unmatched_pred ∧
    ((['a'], ['b'], ['c']) : Triplet) ∈ [((['a'], ['b'], ['c']) : Triplet)] ∧
    [((['a'], ['b'], ['c']) : Triplet)].find?
        (fun u => normTriplet u == normTriplet (['a'], ['b'], ['c']))
      = some (['a'], ['b'], ['c']) := by
  have h := (claim10_unmatched_pred [] [(['a'], ['b'], ['c'])]).2
    (['a'], ['b'], ['c']) (by decide)
  exact ⟨by decide, h.1, h.2⟩

/-! ## Zero-guarded derived metrics -/

/-- Look up one type bucket of a result record, with its derived
metrics. -/
def typeStatsFind (l : List (PyStr × TypeStatsFull)) (k : PyStr) :
    Option TypeStatsFull :=
  (l.find? (fun e => e.1 == k)).map Prod.snd

theorem typeStatsFind_mkLevelMetrics (typeOf : PyStr → PyStr) (r : StatLoopOut)
    (t : PyStr) (s : TypeStatsFull)
    (h : typeStatsFind (mkLevelMetrics typeOf r).type_stats t = some s) :
    ∃ c : TypeCounts, s = mkFullStats c := by
  simp only [typeStatsFind, mkLevelMetrics, find?_map_mkFull] at h
  cases hf : (fpPhase typeOf r.remaining r.stats).find? (fun e => e.1 == t) with
  | none => rw [hf] at h; simp at h
  | some e =>
    rw [hf] at h
    simp at h
    exact ⟨e.2, h.symm⟩

/-- Claim C4: at every granularity and in every type bucket the derived
metrics are computed with explicit zero guards —
`precision = tp/(tp+fp) if tp+fp > 0 else 0`,
`recall = tp/(tp+fn) if tp+fn > 0 else 0`,
`f1 = 2PR/(P+R) if P+R > 0 else 0` — so a zero denominator always
yields the value `0` (the functions are total, so no error is
possible); in particular a gold list with one triple against an empty
predicted list yields `tp=0, fn=1, fp=0` and all three metrics `0`. -/
theorem claim4_zero_guards (gold pred : List Triplet)
    (goldE predE goldR predR : List PyStr) (t : PyStr) (s : TypeStatsFull) :
    ((calculate_metrics gold pred).precision
        = (if (calculate_metrics gold pred).tp + (calculate_metrics gold pred).fp > 0
           then ((calculate_metrics gold pred).tp : ℚ)
              / (((calculate_metrics gold pred).tp : ℚ)
                  + ((calculate_metrics gold pred).fp : ℚ))
           else 0) ∧
      (calculate_metrics gold pred).recall'
        = (if (calculate_metrics gold pred).tp + (calculate_metrics gold pred).fn > 0
           then ((calculate_metrics gold pred).tp : ℚ)
              / (((calculate_metrics gold pred).tp : ℚ)
                  + ((calculate_metrics gold pred).fn : ℚ))
           else 0) ∧
      (calculate_metrics gold pred).f1
        = (if (calculate_metrics gold pred).precision
              + (calculate_metrics gold pred).recall' > 0
           then 2 * (calculate_metrics gold pred).precision
              * (calculate_metrics gold pred).recall'
              / ((calculate_metrics gold pred).precision
                  + (calculate_metrics gold pred).recall')
           else 0)) ∧
    ((calculate_entity_metrics goldE predE).precision
        = precisionOf (calculate_entity_metrics goldE predE).tp
            (calculate_entity_metrics goldE predE).fp ∧
      (calculate_entity_metrics goldE predE).recall'
        = recallOf (calculate_entity_metrics goldE predE).tp
            (calculate_entity_metrics goldE predE).fn ∧
      (calculate_entity_metrics goldE predE).f1
        = f1Of (calculate_entity_metrics goldE predE).precision
            (calculate_entity_metrics goldE predE).recall') ∧
    ((calculate_relation_metrics goldR predR).precision
        = precisionOf (calculate_relation_metrics goldR predR).tp
            (calculate_relation_metrics goldR predR).fp ∧
      (calculate_relation_metrics goldR predR).recall'
        = recallOf (calculate_relation_metrics goldR predR).tp
            (calculate_relation_metrics goldR predR).fn ∧
      (calculate_relation_metrics goldR predR).f1
        = f1Of (calculate_relation_metrics goldR predR).precision
            (calculate_relation_metrics goldR predR).recall') ∧
    (typeStatsFind (calculate_entity_metrics goldE predE).type_stats t = some s →
      s.precision = precisionOf s.tp s.fp ∧ s.recall' = recallOf s.tp s.fn ∧
        s.f1 = f1Of s.precision s.recall') ∧
    (typeStatsFind (calculate_relation_metrics goldR predR).type_stats t = some s →
      s.precision = precisionOf s.tp s.fp ∧ s.recall' = recallOf s.tp s.fn ∧
        s.f1 = f1Of s.precision s.recall') ∧
    (∀ tp fp : Nat, tp + fp = 0 → precisionOf tp fp = 0) ∧
    (∀ tp fn : Nat, tp + fn = 0 → recallOf tp fn = 0) ∧
    (∀ p r : ℚ, p + r = 0 → p ≥ 0 → r ≥ 0 → f1Of p r = 0) ∧
    ((calculate_metrics [(['a'], ['b'], ['c'])] []).tp = 0 ∧
      (calculate_metrics [(['a'], ['b'], ['c'])] []).fn = 1 ∧
      (calculate_metrics [(['a'], ['b'], ['c'])] []).fp = 0 ∧
      (calculate_metrics [(['a'], ['b'], ['c'])] []).precision = 0 ∧
      (calculate_metrics [(['a'], ['b'], ['c'])] []).recall' = 0 ∧
      (calculate_metrics [(['a'], ['b'], ['c'])] []).f1 = 0) := by
  refine ⟨⟨?_, ?_, ?_⟩, ⟨rfl, rfl, rfl⟩, ⟨rfl, rfl, rfl⟩, ?_, ?_, ?_, ?_, ?_,
    ?_, ?_, ?_, ?_, ?_, ?_⟩
  · simp [calculate_metrics, precisionOf]
  · simp [calculate_metrics, recallOf]
  · simp [calculate_metrics, f1Of]
  · intro h
    obtain ⟨c, rfl⟩ := typeStatsFind_mkLevelMetrics _ _ _ _ h
    simp [mkFullStats]
  · intro h
    obtain ⟨c, rfl⟩ := typeStatsFind_mkLevelMetrics _ _ _ _ h
    simp [mkFullStats]
  · intro tp fp h
    simp [precisionOf, h, Nat.le_of_eq h.symm]
  · intro tp fn h
    simp [recallOf, h, Nat.le_of_eq h.symm]
  · intro p r h _ _
    simp [f1Of, h]
  · decide
  · decide
  · decide
  · show precisionOf 0 0 = 0
    simp [precisionOf]
  · show recallOf 0 1 = 0
    norm_num [recallOf]
  · show f1Of (precisionOf 0 0) (recallOf 0 1) = 0
    norm_num [precisionOf, recallOf, f1Of]

/-- Claim C4 at a concrete input: for gold entity list `["A:x"]` and no
predictions, bucket `"A"` exists and its precision is the zero-guarded
formula, and a zero denominator yields `0`. -/
theorem claim4_witness :
    typeStatsFind (calculate_entity_metrics ["A:x".data] []).type_stats "A".data
        = some (mkFullStats { tp := 0, fp := 0, fn := 1 }) ∧
    (mkFullStats { tp := 0, fp := 0, fn := 1 }).precision
        = precisionOf (mkFullStats { tp := 0, fp := 0, fn := 1 }).tp
            (mkFullStats { tp := 0, fp := 0, fn := 1 }).fp ∧
    (0 : Nat) + 0 = 0 ∧ precisionOf 0 0 = 0 := by
  have h := claim4_zero_guards [] [] ["A:x".data] [] [] [] "A".data
    (mkFullStats { tp := 0, fp := 0, fn := 1 })
  exact ⟨rfl, (h.2.2.2.1 rfl).1, rfl, h.2.2.2.2.2.1 0 0 rfl⟩

/-! ## Corpus aggregation -/

theorem sumTripletCounts_eq (files : List (List Triplet × List Triplet)) :
    sumTripletCounts files
      = ((files.map (fun f => (calculate_metrics f.1 f.2).tp)).sum,
         (files.map (fun f => (calculate_metrics f.1 f.2).fp)).sum,
         (files.map (fun f => (calculate_metrics f.1 f.2).fn)).sum) := by
  induction files with
  | nil => rfl
  | cons f fs ih => simp [sumTripletCounts, ih]

/-- Claim C3 (amended): the corpus-level triple metrics of the
aggregator are the zero-guarded precision/recall/F1 formulas applied to
the componentwise sums of the per-file `tp`/`fp`/`fn` counts — they are
recomputed from summed counts, never as a mean of per-file ratios.
(They need not equal a direct greedy computation over the concatenated
gold and predicted lists, since greedy matching is not additive across
files — see the counterexample.) -/
theorem claim3_amended (files : List (List Triplet × List Triplet)) :
    (processFoldersTriplet files).tp
        = (files.map (fun f => (calculate_metrics f.1 f.2).tp)).sum ∧
    (processFoldersTriplet files).fp
        = (files.map (fun f => (calculate_metrics f.1 f.2).fp)).sum ∧
    (processFoldersTriplet files).fn
        = (files.map (fun f => (calculate_metrics f.1 f.2).fn)).sum ∧
    (processFoldersTriplet files).precision
        = precisionOf (files.map (fun f => (calculate_metrics f.1 f.2).tp)).sum
            (files.map (fun f => (calculate_metrics f.1 f.2).fp)).sum ∧
    (processFoldersTriplet files).recall'
        = recallOf (files.map (fun f => (calculate_metrics f.1 f.2).tp)).sum
            (files.map (fun f => (calculate_metrics f.1 f.2).fn)).sum ∧
    (processFoldersTriplet files).f1
        = f1Of
            (precisionOf (files.map (fun f => (calculate_metrics f.1 f.2).tp)).sum
              (files.map (fun f => (calculate_metrics f.1 f.2).fp)).sum)
            (recallOf (files.map (fun f => (calculate_metrics f.1 f.2).tp)).sum
              (files.map (fun f => (calculate_metrics f.1 f.2).fn)).sum) := by
  simp [processFoldersTriplet, sumTripletCounts_eq]

/-- Two file pairs whose gold and predicted triples only line up across
files: the gold triple sits in the first file, the matching predicted
triple in the second. -/
def cexFiles : List (List Triplet × List Triplet) :=
  [([(['a'], ['b'], ['c'])], []), ([], [(['a'], ['b'], ['c'])])]

/-- Claim C3 is false as stated: for `cexFiles` the aggregator sums the
per-file counts to `tp=0, fp=1, fn=1`, giving precision, recall and F1
all `0`, while the direct computation on the flattened lists matches
the triple, giving all three metrics `1`. -/
theorem claim3_counterexample :
    ¬ ((processFoldersTriplet cexFiles).precision
          = (calculate_metrics ((cexFiles.map Prod.fst).flatten)
              ((cexFiles.map Prod.snd).flatten)).precision ∧
        (processFoldersTriplet cexFiles).recall'
          = (calculate_metrics ((cexFiles.map Prod.fst).flatten)
              ((cexFiles.map Prod.snd).flatten)).recall' ∧
        (processFoldersTriplet cexFiles).f1
          = (calculate_metrics ((cexFiles.map Prod.fst).flatten)
              ((cexFiles.map Prod.snd).flatten)).f1) := by
  intro h
  have h1 : (processFoldersTriplet cexFiles).precision = 0 := by
    show precisionOf 0 1 = 0
    norm_num [precisionOf]
  have h2 : (calculate_metrics ((cexFiles.map Prod.fst).flatten)
      ((cexFiles.map Prod.snd).flatten)).precision = 1 := by
    show precisionOf 1 0 = 1
    norm_num [precisionOf]
  rw [h1, h2] at h
  exact absurd h.1 (by norm_num)

/-! ## Deduplicator properties -/

theorem dedupGo_append (th : ℚ) :
    ∀ (es acc : List PyStr), ∃ s : List PyStr,
      dedupGo th es acc = acc ++ s ∧ s.Sublist es := by
  intro es
  induction es with
  | nil => intro acc; exact ⟨[], by simp [dedupGo]⟩
  | cons e es ih =>
    intro acc
    simp only [dedupGo]
    by_cases h : (acc.any (fun u => is_similar_entity e u th)) = true
    · obtain ⟨s, hs, hsub⟩ := ih acc
      rw [if_pos h]
      exact ⟨s, hs, hsub.cons e⟩
    · rw [if_neg h]
      obtain ⟨s, hs, hsub⟩ := ih (acc ++ [e])
      exact ⟨e :: s, by simpa using hs, hsub.cons₂ e⟩

theorem dedupGo_pairwise (th : ℚ) :
    ∀ (es acc : List PyStr),
      acc.Pairwise (fun a b => is_similar_entity b a th = false) →
      (dedupGo th es acc).Pairwise
        (fun a b => is_similar_entity b a th = false) := by
  intro es
  induction es with
  | nil => intro acc h; simpa [dedupGo] using h
  | cons e es ih =>
    intro acc h
    simp only [dedupGo]
    by_cases hc : (acc.any (fun u => is_similar_entity e u th)) = true
    · rw [if_pos hc]
      exact ih acc h
    · rw [if_neg hc]
      apply ih
      rw [List.pairwise_append]
      refine ⟨h, List.pairwise_singleton _ _, ?_⟩
      intro a ha b hb
      simp only [List.mem_singleton] at hb
      subst hb
      have hall : ∀ u ∈ acc, ¬ is_similar_entity b u th = true := by
        intro u hu hsim
        exact hc (List.any_eq_true.mpr ⟨u, hu, hsim⟩)
      exact Bool.eq_false_iff.mpr (hall a ha)

theorem dedupGo_of_pairwise (th : ℚ) :
    ∀ (es acc : List PyStr),
      es.Pairwise (fun a b => is_similar_entity b a th = false) →
      (∀ x ∈ es, ∀ a ∈ acc, is_similar_entity x a th = false) →
      dedupGo th es acc = acc ++ es := by
  intro es
  induction es with
  | nil => intro acc _ _; simp [dedupGo]
  | cons e es ih =>
    intro acc hp hacc
    simp only [dedupGo]
    have hc : ¬ (acc.any (fun u => is_similar_entity e u th)) = true := by
      intro hany
      obtain ⟨u, hu, hsim⟩ := List.any_eq_true.mp hany
      rw [hacc e (List.mem_cons_self e es) u hu] at hsim
      exact Bool.false_ne_true hsim
    rw [if_neg hc]
    rw [ih (acc ++ [e]) (List.Pairwise.of_cons hp) ?_]
    · simp
    · intro x hx a ha
      rcases List.mem_append.mp ha with h1 | h2
      · exact hacc x (List.mem_cons_of_mem e hx) a h1
      · simp only [List.mem_singleton] at h2
        subst h2
        exact (List.pairwise_cons.mp hp).1 x hx

/-- Claim C5: the deduplicator's output is a subsequence of its input
(so its size is at most the input size), every output item is an
element of the input, and rerunning the deduplicator on its own output
returns it unchanged. -/
theorem claim5_dedup (entities : List PyStr) (threshold : ℚ) :
    (deduplicate_entities entities threshold).Sublist entities ∧
    (deduplicate_entities entities threshold).length ≤ entities.length ∧
    (∀ x ∈ deduplicate_entities entities threshold, x ∈ entities) ∧
    deduplicate_entities (deduplicate_entities entities threshold) threshold
      = deduplicate_entities entities threshold := by
  obtain ⟨s, hs, hsub⟩ := dedupGo_append threshold entities []
  have hout : deduplicate_entities entities threshold = s := by
    simpa [deduplicate_entities] using hs
  have hsubl : (deduplicate_entities entities threshold).Sublist entities := by
    rw [hout]; exact hsub
  refine ⟨hsubl, hsubl.length_le, fun x hx => hsubl.mem hx, ?_⟩
  have hpw := dedupGo_pairwise threshold entities [] List.Pairwise.nil
  have hpw' : (deduplicate_entities entities threshold).Pairwise
      (fun a b => is_similar_entity b a threshold = false) := hpw
  have := dedupGo_of_pairwise threshold
    (deduplicate_entities entities threshold) [] hpw' (by simp)
  simpa [deduplicate_entities] using this

/-- Claim C5 at a concrete input: `"a"` survives deduplication of
`["a", "ab"]` and is an element of the input. -/
theorem claim5_witness :
    (['a'] : PyStr) ∈ deduplicate_entities [['a'], ['a', 'b']] 0.8 ∧
    (['a'] : PyStr) ∈ [['a'], ['a', 'b']] := by
  have h := (claim5_dedup [['a'], ['a', 'b']] 0.8).2.2.1 ['a'] (by decide)
  exact ⟨by decide, h⟩

/-! ## Similarity matcher: containment rule, reflexivity, asymmetry -/

/-- Claim C8: whenever one type-stripped entity content is a literal
substring of the other (in either direction), the similarity matcher
returns true at any threshold; in particular the gold entity
`"中成药:龙胆泻肝丸"` and the predicted entity `"中成药:龙胆泻肝丸片"`
are matched, giving entity-level `tp = 1`. -/
theorem claim8_substring_match (e1 e2 : PyStr) (th : ℚ)
    (h : (isSubstrList (entityContent e1) (entityContent e2)
          || isSubstrList (entityContent e2) (entityContent e1)) = true) :
    is_similar_entity e1 e2 th = true ∧
    (calculate_entity_metrics ["中成药:龙胆泻肝丸".data]
        ["中成药:龙胆泻肝丸片".data]).tp = 1 := by
  constructor
  · unfold is_similar_entity
    by_cases he : (e1 == e2) = true
    · rw [if_pos he]
    · rw [if_neg he]
      simp [h]
  · decide

/-- Claim C8 at a concrete input: the example pair's stripped contents
are in containment, so they are matched as the same entity. -/
theorem claim8_witness :
    (isSubstrList (entityContent "中成药:龙胆泻肝丸".data)
        (entityContent "中成药:龙胆泻肝丸片".data)
      || isSubstrList (entityContent "中成药:龙胆泻肝丸片".data)
        (entityContent "中成药:龙胆泻肝丸".data)) = true ∧
    is_similar_entity "中成药:龙胆泻肝丸".data "中成药:龙胆泻肝丸片".data 0.8
      = true := by
  exact ⟨by decide, (claim8_substring_match _ _ 0.8 (by decide)).1⟩

theorem ratio_ab_bacb : sequenceMatcherRatio ['a', 'b'] ['b', 'a', 'c', 'b'] = 2/3 := by
  show (if 2 + 4 > 0 then 2 * ((2 : Nat) : ℚ) / (((2 : Nat) : ℚ) + ((4 : Nat) : ℚ))
        else 1) = 2/3
  norm_num

theorem ratio_bacb_ab : sequenceMatcherRatio ['b', 'a', 'c', 'b'] ['a', 'b'] = 1/3 := by
  show (if 4 + 2 > 0 then 2 * ((1 : Nat) : ℚ) / (((4 : Nat) : ℚ) + ((2 : Nat) : ℚ))
        else 1) = 1/3
  norm_num

/-- Claim C9 is false as stated: the similarity ratio is
order-dependent — `"ab"` against `"bacb"` has ratio `2/3` but `"bacb"`
against `"ab"` has ratio `1/3` (and neither is a substring of the
other), so at threshold `1/2` the matcher answers differently in the
two orders. -/
theorem claim9_counterexample :
    is_similar_entity ['a', 'b'] ['b', 'a', 'c', 'b'] (1/2) = true ∧
    is_similar_entity ['b', 'a', 'c', 'b'] ['a', 'b'] (1/2) = false := by
  constructor
  · have hmain : is_similar_entity ['a', 'b'] ['b', 'a', 'c', 'b'] (1/2)
        = decide (sequenceMatcherRatio ['a', 'b'] ['b', 'a', 'c', 'b'] ≥ 1/2) := rfl
    rw [hmain, ratio_ab_bacb]
    simp only [ge_iff_le, decide_eq_true_eq]
    norm_num
  · have hmain : is_similar_entity ['b', 'a', 'c', 'b'] ['a', 'b'] (1/2)
        = decide (sequenceMatcherRatio ['b', 'a', 'c', 'b'] ['a', 'b'] ≥ 1/2) := rfl
    rw [hmain, ratio_bacb_ab]
    simp only [ge_iff_le, decide_eq_false_iff_not]
    norm_num

/-- Claim C9 (amended): the similarity matcher is reflexive for every
string and threshold; it is not symmetric in general (the ratio rule is
order-dependent), but any match decided by the containment rule is
order-independent: if one stripped content is a substring of the other
then both argument orders return true. -/
theorem claim9_amended (x a b : PyStr) (t t' : ℚ)
    (h : (isSubstrList (entityContent a) (entityContent b)
          || isSubstrList (entityContent b) (entityContent a)) = true) :
    is_similar_entity x x t = true ∧
    is_similar_entity a b t' = true ∧
    is_similar_entity b a t' = true := by
  refine ⟨?_, ?_, ?_⟩
  · unfold is_similar_entity
    rw [if_pos (by simp)]
  · unfold is_similar_entity
    by_cases he : (a == b) = true
    · rw [if_pos he]
    · rw [if_neg he]
      simp [h]
  · unfold is_similar_entity
    by_cases he : (b == a) = true
    · rw [if_pos he]
    · rw [if_neg he]
      rw [Bool.or_comm] at h
      simp [h]

/-- Claim C9 (amended) at a concrete input: reflexivity and the
order-independence of a containment-decided match. -/
theorem claim9_witness :
    (isSubstrList (entityContent ['a']) (entityContent ['a', 'b'])
      || isSubstrList (entityContent ['a', 'b']) (entityContent ['a'])) = true ∧
    is_similar_entity ['c'] ['c'] 0.8 = true ∧
    is_similar_entity ['a'] ['a', 'b'] 0.8 = true ∧
    is_similar_entity ['a', 'b'] ['a'] 0.8 = true := by
  have h := claim9_amended ['c'] ['a'] ['a', 'b'] 0.8 0.8 (by decide)
  exact ⟨by decide, h.1, h.2.1, h.2.2⟩

/-! ## Redundancy of the parenthetical-stripping step -/

theorem mem_subCommaWsGo :
    ∀ (l : PyStr) (flag : Bool), ∀ c ∈ subCommaWsGo flag l,
      c ∈ l ∨ c = ',' ∨ c = ' ' := by
  intro l
  induction l with
  | nil => intro flag c hc; simp [subCommaWsGo] at hc
  | cons x xs ih =>
    intro flag c hc
    simp only [subCommaWsGo] at hc
    by_cases h1 : (flag && isPySpace x) = true
    · rw [if_pos h1] at hc
      rcases ih true c hc with h | h
      · exact Or.inl (List.mem_cons_of_mem x h)
      · exact Or.inr h
    · rw [if_neg h1] at hc
      by_cases h2 : (x == ',') = true
      · rw [if_pos h2] at hc
        rcases List.mem_cons.mp hc with rfl | hc'
        · exact Or.inr (Or.inl rfl)
        · rcases List.mem_cons.mp hc' with rfl | hc''
          · exact Or.inr (Or.inr rfl)
          · rcases ih true c hc'' with h | h
            · exact Or.inl (List.mem_cons_of_mem x h)
            · exact Or.inr h
      · rw [if_neg h2] at hc
        by_cases h3 : (isPySpace x && commaLeads xs) = true
        · rw [if_pos h3] at hc
          rcases ih false c hc with h | h
          · exact Or.inl (List.mem_cons_of_mem x h)
          · exact Or.inr h
        · rw [if_neg h3] at hc
          rcases List.mem_cons.mp hc with rfl | hc'
          · exact Or.inl (List.mem_cons_self _ _)
          · rcases ih false c hc' with h | h
            · exact Or.inl (List.mem_cons_of_mem x h)
            · exact Or.inr h

theorem subParens_id_of_no_lparen :
    ∀ l : PyStr, (∀ c ∈ l, c ≠ '(') → subParens l = l := by
  intro l
  induction l with
  | nil => intro _; rfl
  | cons x xs ih =>
    intro h
    have hx : x ≠ '(' := h x (List.mem_cons_self _ _)
    rw [subParens, if_neg (by simp [hx]),
      ih (fun c hc => h c (List.mem_cons_of_mem _ hc))]

/-- Claim C7: removing the normalizer's third step (stripping
`(...)`-delimited content) does not change its result on any input,
because step 1 already deleted every bracket character, so no `'('`
remains when step 3 runs. -/
theorem claim7_step3_redundant (l : PyStr) :
    normalize_triplet l = normalizeTripletNoStep3 l := by
  unfold normalize_triplet normalizeTripletNoStep3
  rw [subParens_id_of_no_lparen]
  intro c hc
  rcases mem_subCommaWsGo (removeBrackets l) false c hc with h | h | h
  · intro hceq
    have hf := (List.mem_filter.mp h).2
    rw [hceq] at hf
    simp [isBracketChar] at hf
  · rw [h]; decide
  · rw [h]; decide

/-! ## Idempotence of the normalizer

The proof characterizes the strings that `normalize_triplet` can
produce by a small word grammar: a normal form is a space-separated
sequence of nonempty words of plain characters, where a comma can only
occur as the last character of a word, and a word that is just `","`
can only follow a word ending in a comma (the `", ,"` chains that the
comma substitution produces).  `normalize_triplet` maps every string
into this grammar, and on the grammar each pipeline stage is the
identity up to a single trailing space after a final comma, which the
final strip removes. -/

/-- A character that can occur inside a word of a normalized string:
not whitespace, not a comma, not a bracket. -/
def isPlainChar (c : Char) : Bool :=
  !(isPySpace c) && c != ',' && !(isBracketChar c)

/-- Parser states of the normal-form grammar: expecting the start of a
word (recording whether the previous word ended in a comma), inside a
word after a plain character, or just after a word-ending comma. -/
inductive NfSt where
  | wstart (pc : Bool)
  | inword
  | afterc

/-- Acceptor of the normal-form grammar. -/
def nfAux : NfSt → PyStr → Bool
  | .wstart _, [] => false
  | .wstart pc, c :: cs =>
    if c == ',' then pc && nfAux .afterc cs
    else if isPlainChar c then nfAux .inword cs
    else false
  | .inword, [] => true
  | .inword, c :: cs =>
    if isPlainChar c then nfAux .inword cs
    else if c == ',' then nfAux .afterc cs
    else if c == ' ' then nfAux (.wstart false) cs
    else false
  | .afterc, [] => true
  | .afterc, c :: cs => if c == ' ' then nfAux (.wstart true) cs else false

/-- The normal forms: the empty string, or a string accepted by the
grammar. -/
def NF (t : PyStr) : Bool :=
  t.isEmpty || nfAux (.wstart true) t

/-- Does the string end in a comma? -/
def endsC : PyStr → Bool
  | [] => false
  | [c] => c == ','
  | _ :: c :: cs => endsC (c :: cs)

/-- The trailing space that the comma substitution appends after a
final comma. -/
def optSp (t : PyStr) : PyStr :=
  if endsC t then [' '] else []

/-- Removal of trailing whitespace. -/
def rstrip (l : PyStr) : PyStr :=
  (l.reverse.dropWhile isPySpace).reverse

theorem pyStrip_eq_rstrip (l : PyStr) :
    pyStrip l = rstrip (l.dropWhile isPySpace) := rfl

theorem endsC_cons_of_ne_nil (x : Char) {xs : PyStr} (h : xs ≠ []) :
    endsC (x :: xs) = endsC xs := by
  cases xs with
  | nil => exact absurd rfl h
  | cons y ys => rfl

theorem optSp_cons_of_ne_nil (x : Char) {xs : PyStr} (h : xs ≠ []) :
    optSp (x :: xs) = optSp xs := by
  simp [optSp, endsC_cons_of_ne_nil x h]

theorem commaLeads_cons_space {c : Char} (h : isPySpace c = true) (cs : PyStr) :
    commaLeads (c :: cs) = commaLeads cs := by
  simp [commaLeads, List.dropWhile_cons, h]

theorem commaLeads_cons_comma (cs : PyStr) : commaLeads (',' :: cs) = true := by
  simp [commaLeads, List.dropWhile_cons, isPySpace]

theorem commaLeads_cons_nonspace {c : Char} (h : isPySpace c = false)
    (hc : (c == ',') = false) (cs : PyStr) : commaLeads (c :: cs) = false := by
  simp [commaLeads, List.dropWhile_cons, h, hc]

theorem isPlainChar_not_space {c : Char} (h : isPlainChar c = true) :
    isPySpace c = false := by
  simp [isPlainChar] at h
  exact h.1.1

theorem isPlainChar_ne_comma {c : Char} (h : isPlainChar c = true) :
    (c == ',') = false := by
  simp only [isPlainChar, Bool.and_eq_true, bne_iff_ne] at h
  simpa using h.1.2

theorem isPlainChar_not_bracket {c : Char} (h : isPlainChar c = true) :
    isBracketChar c = false := by
  simp [isPlainChar] at h
  exact h.2

theorem optSp_cons_nc {x : Char} (h : (x == ',') = false) (xs : PyStr) :
    optSp (x :: xs) = optSp xs := by
  cases xs with
  | nil => simp [optSp, endsC, h]
  | cons y ys => exact optSp_cons_of_ne_nil x (by simp)

theorem nf_wstart_ne_nil {pc : Bool} {l : PyStr}
    (h : nfAux (.wstart pc) l = true) : l ≠ [] := by
  intro hnil
  subst hnil
  simp [nfAux] at h

theorem nf_wstart_false_not_commaLeads {l : PyStr}
    (h : nfAux (.wstart false) l = true) : commaLeads l = false := by
  cases l with
  | nil => simp [nfAux] at h
  | cons y ys =>
    simp only [nfAux] at h
    by_cases hy : (y == ',') = true
    · rw [if_pos hy] at h
      simp at h
    · rw [if_neg hy] at h
      by_cases hp : isPlainChar y = true
      · exact commaLeads_cons_nonspace (isPlainChar_not_space hp) (by simpa using hy) ys
      · rw [if_neg hp] at h
        exact absurd h (by simp)

/-- The comma substitution on a normal-form string: it reproduces the
string, except that a final comma gets the replacement's trailing
space. -/
theorem subCommaWs_nf :
    ∀ l : PyStr,
      (∀ pc, nfAux (.wstart pc) l = true →
        ∀ flag, subCommaWsGo flag l = l ++ optSp l) ∧
      (nfAux .inword l = true → subCommaWsGo false l = l ++ optSp l) ∧
      (nfAux .afterc l = true →
        ',' :: ' ' :: subCommaWsGo true l = (',' :: l) ++ optSp (',' :: l)) := by
  intro l
  induction l with
  | nil =>
    refine ⟨?_, ?_, ?_⟩
    · intro pc h; simp [nfAux] at h
    · intro _; simp [subCommaWsGo, optSp, endsC]
    · intro _; simp [subCommaWsGo, optSp, endsC]
  | cons x xs ih =>
    obtain ⟨ihW, ihI, ihC⟩ := ih
    have scomma : isPySpace ',' = false := by decide
    refine ⟨?_, ?_, ?_⟩
    · intro pc h flag
      simp only [nfAux] at h
      by_cases hx : (x == ',') = true
      · rw [if_pos hx] at h
        have hx' : x = ',' := by simpa using hx
        subst hx'
        have hafter : nfAux .afterc xs = true := (by simpa using h :
          pc = true ∧ nfAux .afterc xs = true).2
        rw [show subCommaWsGo flag (',' :: xs) = ',' :: ' ' :: subCommaWsGo true xs
            from by simp [subCommaWsGo, scomma]]
        exact ihC hafter
      · rw [if_neg hx] at h
        replace hx := Bool.eq_false_iff.mpr hx
        by_cases hp : isPlainChar x = true
        · rw [if_pos hp] at h
          have hs := isPlainChar_not_space hp
          rw [show subCommaWsGo flag (x :: xs) = x :: subCommaWsGo false xs
              from by simp [subCommaWsGo, hs, hx]]
          rw [ihI h, optSp_cons_nc hx]
          rfl
        · rw [if_neg hp] at h
          exact absurd h (by simp)
    · intro h
      simp only [nfAux] at h
      by_cases hp : isPlainChar x = true
      · rw [if_pos hp] at h
        have hs := isPlainChar_not_space hp
        have hx := isPlainChar_ne_comma hp
        rw [show subCommaWsGo false (x :: xs) = x :: subCommaWsGo false xs
            from by simp [subCommaWsGo, hs, hx]]
        rw [ihI h, optSp_cons_nc hx]
        rfl
      · rw [if_neg hp] at h
        by_cases hx : (x == ',') = true
        · rw [if_pos hx] at h
          have hx' : x = ',' := by simpa using hx
          subst hx'
          rw [show subCommaWsGo false (',' :: xs) = ',' :: ' ' :: subCommaWsGo true xs
              from by simp [subCommaWsGo, scomma]]
          exact ihC h
        · rw [if_neg hx] at h
          replace hx := Bool.eq_false_iff.mpr hx
          by_cases hsp : (x == ' ') = true
          · rw [if_pos hsp] at h
            have hx' : x = ' ' := by simpa using hsp
            subst hx'
            have hcl := nf_wstart_false_not_commaLeads h
            rw [show subCommaWsGo false (' ' :: xs) = ' ' :: subCommaWsGo false xs
                from by simp [subCommaWsGo, hcl, isPySpace]]
            rw [ihW false h false, optSp_cons_of_ne_nil ' ' (nf_wstart_ne_nil h)]
            rfl
          · rw [if_neg hsp] at h
            exact absurd h (by simp)
    · intro h
      simp only [nfAux] at h
      by_cases hsp : (x == ' ') = true
      · rw [if_pos hsp] at h
        have hx' : x = ' ' := by simpa using hsp
        subst hx'
        have hne := nf_wstart_ne_nil h
        rw [show subCommaWsGo true (' ' :: xs) = subCommaWsGo true xs
            from by simp [subCommaWsGo, isPySpace]]
        rw [ihW true h true]
        rw [optSp_cons_of_ne_nil ',' (by simp), optSp_cons_of_ne_nil ' ' hne]
        rfl
      · rw [if_neg hsp] at h
        exact absurd h (by simp)

theorem nf_step : ∀ {st : NfSt} {x : Char} {xs : PyStr},
    nfAux st (x :: xs) = true → ∃ st', nfAux st' xs = true := by
  intro st x xs h
  cases st with
  | wstart pc =>
    simp only [nfAux] at h
    by_cases hx : (x == ',') = true
    · rw [if_pos hx] at h
      exact ⟨.afterc, (by simpa using h : pc = true ∧ nfAux .afterc xs = true).2⟩
    · rw [if_neg hx] at h
      by_cases hp : isPlainChar x = true
      · rw [if_pos hp] at h
        exact ⟨.inword, h⟩
      · rw [if_neg hp] at h
        exact absurd h (by simp)
  | inword =>
    simp only [nfAux] at h
    by_cases hp : isPlainChar x = true
    · rw [if_pos hp] at h
      exact ⟨.inword, h⟩
    · rw [if_neg hp] at h
      by_cases hx : (x == ',') = true
      · rw [if_pos hx] at h
        exact ⟨.afterc, h⟩
      · rw [if_neg hx] at h
        by_cases hsp : (x == ' ') = true
        · rw [if_pos hsp] at h
          exact ⟨.wstart false, h⟩
        · rw [if_neg hsp] at h
          exact absurd h (by simp)
  | afterc =>
    simp only [nfAux] at h
    by_cases hsp : (x == ' ') = true
    · rw [if_pos hsp] at h
      exact ⟨.wstart true, h⟩
    · rw [if_neg hsp] at h
      exact absurd h (by simp)

theorem nf_chars : ∀ (l : PyStr) (st : NfSt), nfAux st l = true →
    ∀ c ∈ l, isPlainChar c = true ∨ c = ',' ∨ c = ' ' := by
  intro l
  induction l with
  | nil => intro st h c hc; simp at hc
  | cons x xs ih =>
    intro st h c hc
    rcases List.mem_cons.mp hc with rfl | hc'
    · cases st with
      | wstart pc =>
        simp only [nfAux] at h
        by_cases hx : (c == ',') = true
        · exact Or.inr (Or.inl (by simpa using hx))
        · rw [if_neg hx] at h
          by_cases hp : isPlainChar c = true
          · exact Or.inl hp
          · rw [if_neg hp] at h
            exact absurd h (by simp)
      | inword =>
        simp only [nfAux] at h
        by_cases hp : isPlainChar c = true
        · exact Or.inl hp
        · rw [if_neg hp] at h
          by_cases hx : (c == ',') = true
          · exact Or.inr (Or.inl (by simpa using hx))
          · rw [if_neg hx] at h
            by_cases hsp : (c == ' ') = true
            · exact Or.inr (Or.inr (by simpa using hsp))
            · rw [if_neg hsp] at h
              exact absurd h (by simp)
      | afterc =>
        simp only [nfAux] at h
        by_cases hsp : (c == ' ') = true
        · exact Or.inr (Or.inr (by simpa using hsp))
        · rw [if_neg hsp] at h
          exact absurd h (by simp)
    · obtain ⟨st', h'⟩ := nf_step h
      exact ih st' h' c hc'

theorem nf_wstart_head_not_space {pc : Bool} {x : Char} {xs : PyStr}
    (h : nfAux (.wstart pc) (x :: xs) = true) : isPySpace x = false := by
  simp only [nfAux] at h
  by_cases hx : (x == ',') = true
  · have hx' : x = ',' := by simpa using hx
    subst hx'
    decide
  · rw [if_neg hx] at h
    by_cases hp : isPlainChar x = true
    · exact isPlainChar_not_space hp
    · rw [if_neg hp] at h
      exact absurd h (by simp)

theorem nf_last : ∀ (l : PyStr) (st : NfSt), nfAux st l = true →
    ∀ c, l.getLast? = some c → isPySpace c = false := by
  intro l
  induction l with
  | nil => intro st h c hc; simp at hc
  | cons x xs ih =>
    intro st h c hc
    cases hxs : xs with
    | nil =>
      subst hxs
      have hcx : x = c := by simpa using hc
      subst hcx
      cases st with
      | wstart pc => exact nf_wstart_head_not_space h
      | inword =>
        simp only [nfAux] at h
        by_cases hp : isPlainChar x = true
        · exact isPlainChar_not_space hp
        · rw [if_neg hp] at h
          by_cases hx : (x == ',') = true
          · have hx' : x = ',' := by simpa using hx
            subst hx'
            decide
          · rw [if_neg hx] at h
            by_cases hsp : (x == ' ') = true
            · rw [if_pos hsp] at h
              exact absurd h (by simp [nfAux])
            · rw [if_neg hsp] at h
              exact absurd h (by simp)
      | afterc =>
        simp only [nfAux] at h
        by_cases hsp : (x == ' ') = true
        · rw [if_pos hsp] at h
          exact absurd h (by simp [nfAux])
        · rw [if_neg hsp] at h
          exact absurd h (by simp)
    | cons y ys =>
      subst hxs
      have hc' : (y :: ys).getLast? = some c := by
        simpa [List.getLast?_cons_cons] using hc
      obtain ⟨st', h'⟩ := nf_step h
      exact ih st' h' c hc'

/-- The whitespace-run collapse is the identity on a normal-form string
with an optional trailing space. -/
theorem subWsRuns_nf (opt : PyStr) (hopt : opt = [] ∨ opt = [' ']) :
    ∀ l : PyStr,
      (∀ pc, nfAux (.wstart pc) l = true →
        ∀ flag, subWsRunsGo flag (l ++ opt) = l ++ opt) ∧
      (nfAux .inword l = true → subWsRunsGo false (l ++ opt) = l ++ opt) ∧
      (nfAux .afterc l = true → subWsRunsGo false (l ++ opt) = l ++ opt) := by
  intro l
  induction l with
  | nil =>
    have hbase : subWsRunsGo false opt = opt := by
      rcases hopt with rfl | rfl <;> rfl
    refine ⟨?_, fun _ => by simpa using hbase, fun _ => by simpa using hbase⟩
    intro pc h
    simp [nfAux] at h
  | cons x xs ih =>
    obtain ⟨ihW, ihI, ihC⟩ := ih
    refine ⟨?_, ?_, ?_⟩
    · intro pc h flag
      simp only [nfAux] at h
      by_cases hx : (x == ',') = true
      · have hx' : x = ',' := by simpa using hx
        subst hx'
        rw [if_pos (by simp)] at h
        have h2 : nfAux .afterc xs = true :=
          (by simpa using h : pc = true ∧ nfAux .afterc xs = true).2
        rw [List.cons_append,
          show subWsRunsGo flag (',' :: (xs ++ opt))
              = ',' :: subWsRunsGo false (xs ++ opt) from by
            simp [subWsRunsGo, show isPySpace ',' = false from by decide],
          ihC h2]
      · rw [if_neg hx] at h
        by_cases hp : isPlainChar x = true
        · rw [if_pos hp] at h
          rw [List.cons_append,
            show subWsRunsGo flag (x :: (xs ++ opt))
                = x :: subWsRunsGo false (xs ++ opt) from by
              simp [subWsRunsGo, isPlainChar_not_space hp],
            ihI h]
        · rw [if_neg hp] at h
          exact absurd h (by simp)
    · intro h
      simp only [nfAux] at h
      by_cases hp : isPlainChar x = true
      · rw [if_pos hp] at h
        rw [List.cons_append,
          show subWsRunsGo false (x :: (xs ++ opt))
              = x :: subWsRunsGo false (xs ++ opt) from by
            simp [subWsRunsGo, isPlainChar_not_space hp],
          ihI h]
      · rw [if_neg hp] at h
        by_cases hx : (x == ',') = true
        · have hx' : x = ',' := by simpa using hx
          subst hx'
          rw [if_pos (by simp)] at h
          rw [List.cons_append,
            show subWsRunsGo false (',' :: (xs ++ opt))
                = ',' :: subWsRunsGo false (xs ++ opt) from by
              simp [subWsRunsGo, show isPySpace ',' = false from by decide],
            ihC h]
        · rw [if_neg hx] at h
          by_cases hsp : (x == ' ') = true
          · have hx' : x = ' ' := by simpa using hsp
            subst hx'
            rw [if_pos (by simp)] at h
            rw [List.cons_append,
              show subWsRunsGo false (' ' :: (xs ++ opt))
                  = ' ' :: subWsRunsGo true (xs ++ opt) from by
                simp [subWsRunsGo, isPySpace]]
            rw [ihW false h true]
          · rw [if_neg hsp] at h
            exact absurd h (by simp)
    · intro h
      simp only [nfAux] at h
      by_cases hsp : (x == ' ') = true
      · have hx' : x = ' ' := by simpa using hsp
        subst hx'
        rw [if_pos (by simp)] at h
        rw [List.cons_append,
          show subWsRunsGo false (' ' :: (xs ++ opt))
              = ' ' :: subWsRunsGo true (xs ++ opt) from by
            simp [subWsRunsGo, isPySpace]]
        rw [ihW true h true]
      · rw [if_neg hsp] at h
        exact absurd h (by simp)

theorem dropWhile_eq_self_of_head {p : Char → Bool} {l : PyStr} {c : Char}
    (hh : l.head? = some c) (hc : p c = false) : l.dropWhile p = l := by
  cases l with
  | nil => simp at hh
  | cons x xs =>
    have hx : x = c := by simpa using hh
    subst hx
    simp [List.dropWhile_cons, hc]

theorem getLast?_nonempty {l : PyStr} (h : l ≠ []) : ∃ d, l.getLast? = some d := by
  cases hl : l.getLast? with
  | some d => exact ⟨d, rfl⟩
  | none => exact absurd (List.getLast?_eq_none.mp hl) h

/-- Stripping is the left inverse of appending the optional trailing
space to a normal-form string. -/
theorem pyStrip_nf_opt {t : PyStr} (hnf : NF t = true) {opt : PyStr}
    (hopt : opt = [] ∨ opt = [' ']) : pyStrip (t ++ opt) = t := by
  by_cases ht : t = []
  · subst ht
    rcases hopt with rfl | rfl <;> rfl
  · have hacc : nfAux (.wstart true) t = true := by
      have h' := hnf
      rw [NF] at h'
      rcases (Bool.or_eq_true _ _).mp h' with h | h
      · exact absurd (by simpa [List.isEmpty_iff] using h) ht
      · exact h
    obtain ⟨c, cs, rfl⟩ : ∃ c cs, t = c :: cs := by
      cases t with
      | nil => exact absurd rfl ht
      | cons c cs => exact ⟨c, cs, rfl⟩
    have hhead := nf_wstart_head_not_space hacc
    obtain ⟨d, hd⟩ := getLast?_nonempty (l := c :: cs) (by simp)
    have hdns : isPySpace d = false := nf_last _ _ hacc d hd
    have hrevdrop : (c :: cs).reverse.dropWhile isPySpace = (c :: cs).reverse := by
      apply dropWhile_eq_self_of_head (c := d) _ hdns
      rw [List.head?_reverse]
      exact hd
    show ((((c :: cs) ++ opt).dropWhile isPySpace).reverse.dropWhile isPySpace).reverse
        = c :: cs
    rw [show (c :: cs) ++ opt = c :: (cs ++ opt) from rfl]
    rw [show (c :: (cs ++ opt)).dropWhile isPySpace = c :: (cs ++ opt) from by
      simp [List.dropWhile_cons, hhead]]
    rcases hopt with rfl | rfl
    · simp only [List.append_nil]
      rw [hrevdrop, List.reverse_reverse]
    · rw [show (c :: (cs ++ [' '])).reverse = ' ' :: (c :: cs).reverse from by
        simp]
      rw [show (' ' :: (c :: cs).reverse).dropWhile isPySpace
          = (c :: cs).reverse.dropWhile isPySpace from by
        simp [List.dropWhile_cons, isPySpace]]
      rw [hrevdrop, List.reverse_reverse]

theorem optSp_cases (t : PyStr) : optSp t = [] ∨ optSp t = [' '] := by
  unfold optSp
  by_cases h : endsC t = true <;> simp [h]

/-- The normalizer is the identity on normal-form strings. -/
theorem normalize_nf_fixed {t : PyStr} (hnf : NF t = true) :
    normalize_triplet t = t := by
  by_cases ht : t = []
  · subst ht
    rfl
  · have hacc : nfAux (.wstart true) t = true := by
      have h' := hnf
      rw [NF] at h'
      rcases (Bool.or_eq_true _ _).mp h' with h | h
      · exact absurd (by simpa [List.isEmpty_iff] using h) ht
      · exact h
    have hchars := nf_chars t _ hacc
    have hA : removeBrackets t = t := by
      rw [removeBrackets, List.filter_eq_self.mpr]
      intro c hc
      rcases hchars c hc with h | h | h
      · simpa using isPlainChar_not_bracket h
      · subst h; decide
      · subst h; decide
    have hB : subCommaWs t = t ++ optSp t := (subCommaWs_nf t).1 true hacc false
    have hC : subParens (t ++ optSp t) = t ++ optSp t := by
      apply subParens_id_of_no_lparen
      intro c hc hceq
      subst hceq
      rcases List.mem_append.mp hc with h | h
      · rcases hchars _ h with h' | h' | h'
        · exact absurd h' (by decide)
        · exact absurd h' (by decide)
        · exact absurd h' (by decide)
      · rcases optSp_cases t with ho | ho <;> rw [ho] at h <;> simp at h
    have hD : subWsRuns (t ++ optSp t) = t ++ optSp t :=
      (subWsRuns_nf (optSp t) (optSp_cases t) t).1 true hacc false
    unfold normalize_triplet
    rw [hA, hB, hC, hD]
    exact pyStrip_nf_opt hnf (optSp_cases t)

/-- States describing the shape of comma-substitution outputs: neutral,
just after an emitted comma (a space must follow), just after an
emitted `", "` (no whitespace may follow), or inside a copied
whitespace run (no comma may follow). -/
inductive BSt where
  | n
  | ac
  | acs
  | ws

/-- Acceptor for the shape of comma-substitution outputs. -/
def boutAux : BSt → PyStr → Bool
  | .n, [] => true
  | .n, c :: cs =>
    if c == ',' then boutAux .ac cs
    else if isPySpace c then boutAux .ws cs
    else boutAux .n cs
  | .ac, [] => false
  | .ac, c :: cs => if c == ' ' then boutAux .acs cs else false
  | .acs, [] => true
  | .acs, c :: cs =>
    if c == ',' then boutAux .ac cs
    else if isPySpace c then false
    else boutAux .n cs
  | .ws, [] => true
  | .ws, c :: cs =>
    if c == ',' then false
    else if isPySpace c then boutAux .ws cs
    else boutAux .n cs

/-- Every output of the comma substitution has the `boutAux` shape. -/
theorem subCommaWs_bout :
    ∀ l : PyStr,
      boutAux .n (subCommaWsGo false l) = true ∧
      boutAux .acs (subCommaWsGo true l) = true ∧
      (commaLeads l = false → boutAux .ws (subCommaWsGo false l) = true) := by
  intro l
  induction l with
  | nil => exact ⟨rfl, rfl, fun _ => rfl⟩
  | cons x xs ih =>
    obtain ⟨ihN, ihACS, ihWS⟩ := ih
    have scomma : isPySpace ',' = false := by decide
    refine ⟨?_, ?_, ?_⟩
    · by_cases hx : (x == ',') = true
      · have hx' : x = ',' := by simpa using hx
        subst hx'
        rw [show subCommaWsGo false (',' :: xs) = ',' :: ' ' :: subCommaWsGo true xs
            from by simp [subCommaWsGo, scomma]]
        rw [show boutAux .n (',' :: ' ' :: subCommaWsGo true xs)
            = boutAux .acs (subCommaWsGo true xs) from by simp [boutAux]]
        exact ihACS
      · replace hx := Bool.eq_false_iff.mpr hx
        by_cases hsp : isPySpace x = true
        · by_cases hcl : commaLeads xs = true
          · rw [show subCommaWsGo false (x :: xs) = subCommaWsGo false xs
                from by simp [subCommaWsGo, hsp, hx, hcl]]
            exact ihN
          · replace hcl := Bool.eq_false_iff.mpr hcl
            rw [show subCommaWsGo false (x :: xs) = x :: subCommaWsGo false xs
                from by simp [subCommaWsGo, hsp, hx, hcl]]
            rw [show boutAux .n (x :: subCommaWsGo false xs)
                = boutAux .ws (subCommaWsGo false xs) from by
              simp [boutAux, hx, hsp]]
            exact ihWS hcl
        · replace hsp := Bool.eq_false_iff.mpr hsp
          rw [show subCommaWsGo false (x :: xs) = x :: subCommaWsGo false xs
              from by simp [subCommaWsGo, hsp, hx]]
          rw [show boutAux .n (x :: subCommaWsGo false xs)
              = boutAux .n (subCommaWsGo false xs) from by
            simp [boutAux, hx, hsp]]
          exact ihN
    · by_cases hsp : isPySpace x = true
      · rw [show subCommaWsGo true (x :: xs) = subCommaWsGo true xs
            from by simp [subCommaWsGo, hsp]]
        exact ihACS
      · replace hsp := Bool.eq_false_iff.mpr hsp
        by_cases hx : (x == ',') = true
        · have hx' : x = ',' := by simpa using hx
          subst hx'
          rw [show subCommaWsGo true (',' :: xs) = ',' :: ' ' :: subCommaWsGo true xs
              from by simp [subCommaWsGo, scomma]]
          rw [show boutAux .acs (',' :: ' ' :: subCommaWsGo true xs)
              = boutAux .acs (subCommaWsGo true xs) from by simp [boutAux]]
          exact ihACS
        · replace hx := Bool.eq_false_iff.mpr hx
          rw [show subCommaWsGo true (x :: xs) = x :: subCommaWsGo false xs
              from by simp [subCommaWsGo, hsp, hx]]
          rw [show boutAux .acs (x :: subCommaWsGo false xs)
              = boutAux .n (subCommaWsGo false xs) from by
            simp [boutAux, hx, hsp]]
          exact ihN
    · intro hcl
      by_cases hx : (x == ',') = true
      · have hx' : x = ',' := by simpa using hx
        subst hx'
        rw [commaLeads_cons_comma] at hcl
        exact absurd hcl (by simp)
      · replace hx := Bool.eq_false_iff.mpr hx
        by_cases hsp : isPySpace x = true
        · have hcl' : commaLeads xs = false := by
            rw [← commaLeads_cons_space hsp]
            exact hcl
          rw [show subCommaWsGo false (x :: xs) = x :: subCommaWsGo false xs
              from by simp [subCommaWsGo, hsp, hx, hcl']]
          rw [show boutAux .ws (x :: subCommaWsGo false xs)
              = boutAux .ws (subCommaWsGo false xs) from by
            simp [boutAux, hx, hsp]]
          exact ihWS hcl'
        · replace hsp := Bool.eq_false_iff.mpr hsp
          rw [show subCommaWsGo false (x :: xs) = x :: subCommaWsGo false xs
              from by simp [subCommaWsGo, hsp, hx]]
          rw [show boutAux .ws (x :: subCommaWsGo false xs)
              = boutAux .n (subCommaWsGo false xs) from by
            simp [boutAux, hx, hsp]]
          exact ihN

/-- States describing whitespace-collapse outputs of comma-substitution
outputs: neutral, after a comma, after `", "`, or after a collapsed
single space. -/
inductive DSt where
  | n
  | ac
  | acs
  | s1

/-- Acceptor for the shape of the collapsed strings: all whitespace is
single spaces, every comma is followed by a space, and a space is never
followed by whitespace, nor by a comma unless the space itself followed
a comma. -/
def doutAux : DSt → PyStr → Bool
  | .n, [] => true
  | .n, c :: cs =>
    if c == ',' then doutAux .ac cs
    else if c == ' ' then doutAux .s1 cs
    else if isPySpace c then false
    else doutAux .n cs
  | .ac, [] => false
  | .ac, c :: cs => if c == ' ' then doutAux .acs cs else false
  | .acs, [] => true
  | .acs, c :: cs =>
    if c == ',' then doutAux .ac cs
    else if isPySpace c then false
    else doutAux .n cs
  | .s1, [] => true
  | .s1, c :: cs =>
    if isPySpace c then false
    else if c == ',' then false
    else doutAux .n cs

theorem nonspace_ne_space {c : Char} (h : isPySpace c = false) :
    (c == ' ') = false := by
  by_cases hc : (c == ' ') = true
  · have hc' : c = ' ' := by simpa using hc
    subst hc'
    exact absurd h (by decide)
  · exact Bool.eq_false_iff.mpr hc

/-- The whitespace collapse maps `boutAux`-shaped strings to
`doutAux`-shaped strings. -/
theorem subWsRuns_dout :
    ∀ l : PyStr,
      (boutAux .n l = true → doutAux .n (subWsRunsGo false l) = true) ∧
      (boutAux .ac l = true → doutAux .ac (subWsRunsGo false l) = true) ∧
      (∀ flag, boutAux .acs l = true → doutAux .acs (subWsRunsGo flag l) = true) ∧
      (boutAux .ws l = true → doutAux .s1 (subWsRunsGo true l) = true) := by
  intro l
  induction l with
  | nil =>
    refine ⟨fun _ => rfl, fun h => by simp [boutAux] at h, fun flag _ => ?_, fun _ => rfl⟩
    cases flag <;> rfl
  | cons x xs ih =>
    obtain ⟨ihN, ihAC, ihACS, ihWS⟩ := ih
    have scomma : isPySpace ',' = false := by decide
    refine ⟨?_, ?_, ?_, ?_⟩
    · intro h
      simp only [boutAux] at h
      by_cases hx : (x == ',') = true
      · have hx' : x = ',' := by simpa using hx
        subst hx'
        rw [if_pos (by simp)] at h
        rw [show subWsRunsGo false (',' :: xs) = ',' :: subWsRunsGo false xs
            from by simp [subWsRunsGo, scomma]]
        rw [show doutAux .n (',' :: subWsRunsGo false xs)
            = doutAux .ac (subWsRunsGo false xs) from by simp [doutAux]]
        exact ihAC h
      · rw [if_neg (by simpa using Bool.eq_false_iff.mpr hx)] at h
        replace hx := Bool.eq_false_iff.mpr hx
        by_cases hsp : isPySpace x = true
        · rw [if_pos hsp] at h
          rw [show subWsRunsGo false (x :: xs) = ' ' :: subWsRunsGo true xs
              from by simp [subWsRunsGo, hsp]]
          rw [show doutAux .n (' ' :: subWsRunsGo true xs)
              = doutAux .s1 (subWsRunsGo true xs) from by simp [doutAux]]
          exact ihWS h
        · rw [if_neg hsp] at h
          replace hsp := Bool.eq_false_iff.mpr hsp
          rw [show subWsRunsGo false (x :: xs) = x :: subWsRunsGo false xs
              from by simp [subWsRunsGo, hsp]]
          rw [show doutAux .n (x :: subWsRunsGo false xs)
              = doutAux .n (subWsRunsGo false xs) from by
            simp [doutAux, hx, hsp, nonspace_ne_space hsp]]
          exact ihN h
    · intro h
      simp only [boutAux] at h
      by_cases hsp : (x == ' ') = true
      · have hx' : x = ' ' := by simpa using hsp
        subst hx'
        rw [if_pos (by simp)] at h
        rw [show subWsRunsGo false (' ' :: xs) = ' ' :: subWsRunsGo true xs
            from by simp [subWsRunsGo, isPySpace]]
        rw [show doutAux .ac (' ' :: subWsRunsGo true xs)
            = doutAux .acs (subWsRunsGo true xs) from by simp [doutAux]]
        exact ihACS true h
      · rw [if_neg hsp] at h
        exact absurd h (by simp)
    · intro flag h
      simp only [boutAux] at h
      by_cases hx : (x == ',') = true
      · have hx' : x = ',' := by simpa using hx
        subst hx'
        rw [if_pos (by simp)] at h
        rw [show subWsRunsGo flag (',' :: xs) = ',' :: subWsRunsGo false xs
            from by simp [subWsRunsGo, scomma]]
        rw [show doutAux .acs (',' :: subWsRunsGo false xs)
            = doutAux .ac (subWsRunsGo false xs) from by simp [doutAux]]
        exact ihAC h
      · rw [if_neg (by simpa using Bool.eq_false_iff.mpr hx)] at h
        replace hx := Bool.eq_false_iff.mpr hx
        by_cases hsp : isPySpace x = true
        · rw [if_pos hsp] at h
          exact absurd h (by simp)
        · rw [if_neg hsp] at h
          replace hsp := Bool.eq_false_iff.mpr hsp
          rw [show subWsRunsGo flag (x :: xs) = x :: subWsRunsGo false xs
              from by simp [subWsRunsGo, hsp]]
          rw [show doutAux .acs (x :: subWsRunsGo false xs)
              = doutAux .n (subWsRunsGo false xs) from by
            simp [doutAux, hx, hsp]]
          exact ihN h
    · intro h
      simp only [boutAux] at h
      by_cases hx : (x == ',') = true
      · rw [if_pos hx] at h
        exact absurd h (by simp)
      · rw [if_neg hx] at h
        replace hx := Bool.eq_false_iff.mpr hx
        by_cases hsp : isPySpace x = true
        · rw [if_pos hsp] at h
          rw [show subWsRunsGo true (x :: xs) = subWsRunsGo true xs
              from by simp [subWsRunsGo, hsp]]
          exact ihWS h
        · rw [if_neg hsp] at h
          replace hsp := Bool.eq_false_iff.mpr hsp
          rw [show subWsRunsGo true (x :: xs) = x :: subWsRunsGo false xs
              from by simp [subWsRunsGo, hsp]]
          rw [show doutAux .s1 (x :: subWsRunsGo false xs)
              = doutAux .n (subWsRunsGo false xs) from by
            simp [doutAux, hx, hsp]]
          exact ihN h

theorem mem_subWsRunsGo :
    ∀ (l : PyStr) (flag : Bool), ∀ c ∈ subWsRunsGo flag l, c ∈ l ∨ c = ' ' := by
  intro l
  induction l with
  | nil => intro flag c hc; simp [subWsRunsGo] at hc
  | cons x xs ih =>
    intro flag c hc
    simp only [subWsRunsGo] at hc
    by_cases hsp : isPySpace x = true
    · rw [if_pos hsp] at hc
      cases flag with
      | true =>
        rcases ih true c (by simpa using hc) with h | h
        · exact Or.inl (List.mem_cons_of_mem x h)
        · exact Or.inr h
      | false =>
        rcases List.mem_cons.mp (by simpa using hc) with rfl | hc'
        · exact Or.inr rfl
        · rcases ih true c hc' with h | h
          · exact Or.inl (List.mem_cons_of_mem x h)
          · exact Or.inr h
    · rw [if_neg hsp] at hc
      rcases List.mem_cons.mp hc with rfl | hc'
      · exact Or.inl (List.mem_cons_self _ _)
      · rcases ih false c hc' with h | h
        · exact Or.inl (List.mem_cons_of_mem x h)
        · exact Or.inr h

theorem rstrip_cons (c : Char) (cs : PyStr) :
    rstrip (c :: cs)
      = if rstrip cs = [] then (if isPySpace c then [] else [c])
        else c :: rstrip cs := by
  have hrev : (c :: cs).reverse = cs.reverse ++ [c] := by simp
  rw [rstrip, hrev, List.dropWhile_append]
  by_cases h : (cs.reverse.dropWhile isPySpace).isEmpty = true
  · have hnil : rstrip cs = [] := by
      rw [rstrip]
      simpa [List.isEmpty_iff] using h
    rw [if_pos h, if_pos hnil]
    by_cases hc : isPySpace c = true
    · simp [List.dropWhile_cons, hc]
    · simp [List.dropWhile_cons, hc]
  · have hnil : ¬ rstrip cs = [] := by
      rw [rstrip]
      simpa [List.isEmpty_iff] using h
    rw [if_neg h, if_neg hnil]
    rw [List.reverse_append]
    simp [rstrip]

theorem rstrip_cons_nonspace {c : Char} (h : isPySpace c = false) (cs : PyStr) :
    rstrip (c :: cs) = c :: rstrip cs := by
  rw [rstrip_cons]
  by_cases hr : rstrip cs = []
  · rw [if_pos hr, if_neg (by simp [h]), hr]
  · rw [if_neg hr]

theorem nf_wstart_mono {l : PyStr} (h : nfAux (.wstart false) l = true) :
    nfAux (.wstart true) l = true := by
  cases l with
  | nil => simpa [nfAux] using h
  | cons x xs =>
    simp only [nfAux] at h ⊢
    by_cases hx : (x == ',') = true
    · rw [if_pos hx] at h
      exact absurd h (by simp)
    · rw [if_neg hx] at h ⊢
      exact h

theorem nf_inword_cons_to_wstart {c : Char} {l : PyStr}
    (hc : isPySpace c = false) (h : nfAux .inword (c :: l) = true) :
    nfAux (.wstart true) (c :: l) = true := by
  simp only [nfAux] at h ⊢
  by_cases hp : isPlainChar c = true
  · rw [if_pos hp] at h
    rw [if_neg (by simpa using isPlainChar_ne_comma hp), if_pos hp]
    exact h
  · rw [if_neg hp] at h
    by_cases hx : (c == ',') = true
    · rw [if_pos hx] at h
      rw [if_pos hx]
      simpa using h
    · rw [if_neg hx] at h
      rw [if_neg hx, if_neg hp]
      by_cases hsp : (c == ' ') = true
      · have : c = ' ' := by simpa using hsp
        subst this
        exact absurd hc (by decide)
      · rw [if_neg hsp] at h
        exact absurd h (by simp)

/-- Stripping the trailing whitespace of a `doutAux`-shaped bracket-free
string yields a string of the normal-form grammar (in the state
corresponding to the automaton state). -/
theorem dout_to_nf :
    ∀ u : PyStr, (∀ c ∈ u, isBracketChar c = false) →
      (doutAux .n u = true → nfAux .inword (rstrip u) = true) ∧
      (doutAux .ac u = true → nfAux .afterc (rstrip u) = true) ∧
      (doutAux .acs u = true →
        rstrip u = [] ∨ nfAux (.wstart true) (rstrip u) = true) ∧
      (doutAux .s1 u = true →
        rstrip u = [] ∨ nfAux (.wstart false) (rstrip u) = true) := by
  intro u
  induction u with
  | nil =>
    intro _
    refine ⟨fun _ => rfl, fun h => by simp [doutAux] at h,
      fun _ => Or.inl rfl, fun _ => Or.inl rfl⟩
  | cons x xs ih =>
    intro hb
    have hbxs : ∀ c ∈ xs, isBracketChar c = false :=
      fun c hc => hb c (List.mem_cons_of_mem x hc)
    obtain ⟨ihN, ihAC, ihACS, ihS1⟩ := ih hbxs
    have hbx : isBracketChar x = false := hb x (List.mem_cons_self _ _)
    refine ⟨?_, ?_, ?_, ?_⟩
    · intro h
      simp only [doutAux] at h
      by_cases hx : (x == ',') = true
      · have hx' : x = ',' := by simpa using hx
        subst hx'
        rw [if_pos (by simp)] at h
        rw [rstrip_cons_nonspace (by decide)]
        rw [show nfAux .inword (',' :: rstrip xs) = nfAux .afterc (rstrip xs)
            from by simp [nfAux, isPlainChar]]
        exact ihAC h
      · rw [if_neg hx] at h
        replace hx := Bool.eq_false_iff.mpr hx
        by_cases hsp : (x == ' ') = true
        · have hx' : x = ' ' := by simpa using hsp
          subst hx'
          rw [if_pos (by simp)] at h
          rw [rstrip_cons]
          by_cases hr : rstrip xs = []
          · rw [if_pos hr, if_pos (by decide)]
            rfl
          · rw [if_neg hr]
            rcases ihS1 h with h' | h'
            · exact absurd h' hr
            · rw [show nfAux .inword (' ' :: rstrip xs)
                  = nfAux (.wstart false) (rstrip xs) from by
                simp [nfAux, isPlainChar, isPySpace]]
              exact h'
        · rw [if_neg hsp] at h
          by_cases hws : isPySpace x = true
          · rw [if_pos hws] at h
            exact absurd h (by simp)
          · rw [if_neg hws] at h
            replace hws := Bool.eq_false_iff.mpr hws
            have hplain : isPlainChar x = true := by
              simp [isPlainChar, hws, hbx]
              simpa using hx
            rw [rstrip_cons_nonspace hws]
            rw [show nfAux .inword (x :: rstrip xs) = nfAux .inword (rstrip xs)
                from by simp [nfAux, hplain]]
            exact ihN h
    · intro h
      simp only [doutAux] at h
      by_cases hsp : (x == ' ') = true
      · have hx' : x = ' ' := by simpa using hsp
        subst hx'
        rw [if_pos (by simp)] at h
        rw [rstrip_cons]
        by_cases hr : rstrip xs = []
        · rw [if_pos hr, if_pos (by decide)]
          rfl
        · rw [if_neg hr]
          rcases ihACS h with h' | h'
          · exact absurd h' hr
          · rw [show nfAux .afterc (' ' :: rstrip xs)
                = nfAux (.wstart true) (rstrip xs) from by simp [nfAux]]
            exact h'
      · rw [if_neg hsp] at h
        exact absurd h (by simp)
    · intro h
      simp only [doutAux] at h
      by_cases hx : (x == ',') = true
      · have hx' : x = ',' := by simpa using hx
        subst hx'
        rw [if_pos (by simp)] at h
        rw [rstrip_cons_nonspace (by decide)]
        refine Or.inr ?_
        rw [show nfAux (.wstart true) (',' :: rstrip xs)
            = (true && nfAux .afterc (rstrip xs)) from by simp [nfAux]]
        simpa using ihAC h
      · rw [if_neg (by simpa using Bool.eq_false_iff.mpr hx)] at h
        replace hx := Bool.eq_false_iff.mpr hx
        by_cases hws : isPySpace x = true
        · rw [if_pos hws] at h
          exact absurd h (by simp)
        · rw [if_neg hws] at h
          replace hws := Bool.eq_false_iff.mpr hws
          have hplain : isPlainChar x = true := by
            simp [isPlainChar, hws, hbx]
            simpa using hx
          rw [rstrip_cons_nonspace hws]
          refine Or.inr ?_
          rw [show nfAux (.wstart true) (x :: rstrip xs)
              = nfAux .inword (rstrip xs) from by simp [nfAux, hx, hplain]]
          exact ihN h
    · intro h
      simp only [doutAux] at h
      by_cases hws : isPySpace x = true
      · rw [if_pos hws] at h
        exact absurd h (by simp)
      · rw [if_neg hws] at h
        replace hws := Bool.eq_false_iff.mpr hws
        by_cases hx : (x == ',') = true
        · rw [if_pos hx] at h
          exact absurd h (by simp)
        · rw [if_neg hx] at h
          replace hx := Bool.eq_false_iff.mpr hx
          have hplain : isPlainChar x = true := by
            simp [isPlainChar, hws, hbx]
            simpa using hx
          rw [rstrip_cons_nonspace hws]
          refine Or.inr ?_
          rw [show nfAux (.wstart false) (x :: rstrip xs)
              = nfAux .inword (rstrip xs) from by simp [nfAux, hx, hplain]]
          exact ihN h

/-- Stripping a `doutAux`-shaped bracket-free string on both ends yields a
normal form. -/
theorem pyStrip_dout_nf {u : PyStr} (hb : ∀ c ∈ u, isBracketChar c = false)
    (h : doutAux .n u = true) : NF (pyStrip u) = true := by
  cases u with
  | nil => rfl
  | cons c cs =>
    rw [pyStrip_eq_rstrip]
    have hbcs : ∀ x ∈ cs, isBracketChar x = false :=
      fun x hx => hb x (List.mem_cons_of_mem c hx)
    by_cases hsp : isPySpace c = true
    · have hcm : (c == ',') = false := by
        by_cases hc : (c == ',') = true
        · have : c = ',' := by simpa using hc
          subst this
          exact absurd hsp (by decide)
        · exact Bool.eq_false_iff.mpr hc
      simp only [doutAux] at h
      rw [if_neg (show ¬ (c == ',') = true by simp [hcm])] at h
      by_cases hspace : (c == ' ') = true
      · rw [if_pos hspace] at h
        rw [show (c :: cs).dropWhile isPySpace = cs.dropWhile isPySpace from by
          simp [List.dropWhile_cons, hsp]]
        cases cs with
        | nil => rfl
        | cons d ds =>
          have hd : isPySpace d = false := by
            by_cases hd' : isPySpace d = true
            · simp [doutAux, hd'] at h
            · exact Bool.eq_false_iff.mpr hd'
          rw [show (d :: ds).dropWhile isPySpace = d :: ds from by
            simp [List.dropWhile_cons, hd]]
          rcases (dout_to_nf (d :: ds) hbcs).2.2.2 h with h' | h'
          · rw [h']
            rfl
          · simp [NF, nf_wstart_mono h']
      · rw [if_neg hspace, if_pos hsp] at h
        exact absurd h (by simp)
    · rw [show (c :: cs).dropWhile isPySpace = c :: cs from by
        simp [List.dropWhile_cons, hsp]]
      have hin := (dout_to_nf (c :: cs) hb).1 h
      rw [rstrip_cons_nonspace (Bool.eq_false_iff.mpr hsp)] at hin ⊢
      simp [NF,
        nf_inword_cons_to_wstart (Bool.eq_false_iff.mpr hsp) hin]

/-- Every output of `normalize_triplet` is in normal form. -/
theorem normalize_nf (l : PyStr) : NF (normalize_triplet l) = true := by
  have hbrA : ∀ c ∈ removeBrackets l, isBracketChar c = false := by
    intro c hc
    have := List.mem_filter.mp hc
    simpa using this.2
  have hbrB : ∀ c ∈ subCommaWs (removeBrackets l), isBracketChar c = false := by
    intro c hc
    simp only [subCommaWs] at hc
    rcases mem_subCommaWsGo (removeBrackets l) false c hc with h | h | h
    · exact hbrA c h
    · subst h
      decide
    · subst h
      decide
  have hpar : subParens (subCommaWs (removeBrackets l))
      = subCommaWs (removeBrackets l) := by
    apply subParens_id_of_no_lparen
    intro c hc heq
    subst heq
    exact absurd (hbrB _ hc) (by decide)
  have hbout : boutAux .n (subCommaWs (removeBrackets l)) = true :=
    (subCommaWs_bout (removeBrackets l)).1
  have hdout : doutAux .n (subWsRuns (subCommaWs (removeBrackets l))) = true :=
    (subWsRuns_dout (subCommaWs (removeBrackets l))).1 hbout
  have hbrD : ∀ c ∈ subWsRuns (subCommaWs (removeBrackets l)),
      isBracketChar c = false := by
    intro c hc
    simp only [subWsRuns] at hc
    rcases mem_subWsRunsGo (subCommaWs (removeBrackets l)) false c hc with h | h
    · exact hbrB c h
    · subst h
      decide
  rw [normalize_triplet, hpar]
  exact pyStrip_dout_nf hbrD hdout

/-- Claim C6: `normalize_triplet` is idempotent — applying it to its own
output returns that output unchanged, so normalized forms are canonical
representatives. -/
theorem claim6_idempotent (l : PyStr) :
    normalize_triplet (normalize_triplet l) = normalize_triplet l :=
  normalize_nf_fixed (normalize_nf l)

end KELLM
